import Mathlib

set_option maxHeartbeats 1600000

/- Shallow embedding of src/SlabManager.hpp (class gen::SlabManager).
   size_t values are modelled as Nat; every value arising in an execution the
   C++ program supports is below 2^64.  NULL_INDEX models Index(-1). -/

def U64 : Nat := 2 ^ 64

def NULL_INDEX : Nat := U64 - 1

/-- Truncating size_t subtraction, for operands below 2^64. -/
def sub64 (a b : Nat) : Nat := (U64 + a - b) % U64

/-- One slot record (struct Elem).  The default constructor Elem() gives
    is_empty = true, prev = next = NULL_INDEX. -/
structure Elem where
  is_empty : Bool
  prev : Nat
  next : Nat
deriving DecidableEq

def Elem.def0 : Elem := ⟨true, NULL_INDEX, NULL_INDEX⟩

/-- Read elem_vec[i] (vector operator[]).  Out-of-range reads never occur in
    the executions reasoned about below; here they default to Elem.def0. -/
def getE : List Elem → Nat → Elem
  | [], _ => Elem.def0
  | e :: _, 0 => e
  | _ :: v, i + 1 => getE v i

/-- Write elem_vec[i] (vector operator[]).  Out-of-range writes never occur in
    the executions reasoned about below; here they are a no-op. -/
def setE : List Elem → Nat → Elem → List Elem
  | [], _, _ => []
  | _ :: v, 0, e => e :: v
  | x :: v, i + 1, e => x :: setE v i e

def setPrev (v : List Elem) (i x : Nat) : List Elem :=
  setE v i { getE v i with prev := x }

def setNext (v : List Elem) (i x : Nat) : List Elem :=
  setE v i { getE v i with next := x }

def setEmpty (v : List Elem) (i : Nat) (b : Bool) : List Elem :=
  setE v i { getE v i with is_empty := b }

/-- std::vector<Elem>::resize — truncate, or extend with value-initialized
    Elem() records. -/
def resizeVec (v : List Elem) (k : Nat) : List Elem :=
  if k ≤ v.length then v.take k else v ++ List.replicate (k - v.length) Elem.def0

structure SlabManager where
  empty_head : Nat
  filled_head : Nat
  empty_cnt : Nat
  filled_cnt : Nat
  elem_vec : List Elem
deriving DecidableEq

inductive SMErr where
  | outOfRange
  | logicError
deriving DecidableEq

/-- Slot record produced at index i by SlabManager::initialize on an array of
    n slots: slots 0..n-1 are made into one ascending free chain
    0 → 1 → ⋯ → n-1 (slot 0 write, middle loop, slot n-1 write of the n > 1
    branch; for n = 1 both links are NULL_INDEX, as in the else branch). -/
def freeChainElem (n i : Nat) : Elem :=
  { is_empty := true
  , prev := if i = 0 then NULL_INDEX else i - 1
  , next := if i = n - 1 then NULL_INDEX else i + 1 }

/-- Writes performed on elem_vec by SlabManager::initialize(n): the n > 1
    branch rewrites slots 0..n-1 into the ascending free chain; the else
    branch writes the single slot 0. -/
def initCells (v : List Elem) (n : Nat) : List Elem :=
  if 1 < n then
    (List.range v.length).map (fun i => if i < n then freeChainElem n i else getE v i)
  else
    setE v 0 ⟨true, NULL_INDEX, NULL_INDEX⟩

def SlabManager.initialize (m : SlabManager) (n : Nat) : SlabManager :=
  { empty_head := 0
  , filled_head := NULL_INDEX
  , empty_cnt := n
  , filled_cnt := 0
  , elem_vec := initCells m.elem_vec n }

/-- SlabManager(size_t n): a vector of (n > 0 ? n : 1) value-initialized
    slots, then initialize(n).  (The heads and counts are set by initialize;
    the seed values below are irrelevant.) -/
def SlabManager.construct (n : Nat) : SlabManager :=
  SlabManager.initialize
    { empty_head := 0, filled_head := NULL_INDEX, empty_cnt := 0, filled_cnt := 0
    , elem_vec := List.replicate (if 0 < n then n else 1) Elem.def0 }
    (if 0 < n then n else 1)

def SlabManager.acquire (m : SlabManager) : SlabManager × Nat :=
  if m.empty_head ≠ NULL_INDEX then
    let rv := m.empty_head
    let eh := (getE m.elem_vec rv).next
    let v1 := if eh ≠ NULL_INDEX then setPrev m.elem_vec eh NULL_INDEX else m.elem_vec
    let v2 := if m.filled_head ≠ NULL_INDEX then setPrev v1 m.filled_head rv else v1
    let v3 := setNext v2 rv m.filled_head
    let v4 := setPrev v3 rv NULL_INDEX
    let v5 := setEmpty v4 rv false
    (⟨eh, rv, sub64 m.empty_cnt 1, m.filled_cnt + 1, v5⟩, rv)
  else
    let rv := m.elem_vec.length
    let v0 := m.elem_vec ++ [Elem.def0]
    let v1 := if m.filled_head ≠ NULL_INDEX then setPrev v0 m.filled_head rv else v0
    let v2 := setNext v1 rv m.filled_head
    let v3 := setPrev v2 rv NULL_INDEX
    let v4 := setEmpty v3 rv false
    (⟨m.empty_head, rv, m.empty_cnt, m.filled_cnt + 1, v4⟩, rv)

def SlabManager.is_slot_empty (m : SlabManager) (ind : Nat) : Except SMErr Bool :=
  if ind ≥ m.elem_vec.length then Except.error SMErr.outOfRange
  else Except.ok (getE m.elem_vec ind).is_empty

/-- SlabManager::give_back.  The C++ method throws on a double release, and
    the is_slot_empty call inside it throws on an out-of-bounds index; a
    throw happens before any mutation and leaves the object unchanged, so the
    model returns the resulting state together with the raised error, if
    any. -/
def SlabManager.give_back (m : SlabManager) (ind : Nat) : SlabManager × Option SMErr :=
  match m.is_slot_empty ind with
  | Except.error e => (m, some e)
  | Except.ok true => (m, some SMErr.logicError)
  | Except.ok false =>
    let p := (getE m.elem_vec ind).prev
    let nx := (getE m.elem_vec ind).next
    let v1 := if nx ≠ NULL_INDEX then setPrev m.elem_vec nx p else m.elem_vec
    let v2 := if p ≠ NULL_INDEX then setNext v1 p nx else v1
    let fh := if p ≠ NULL_INDEX then m.filled_head else nx
    let v3 := if m.empty_head ≠ NULL_INDEX then setPrev v2 m.empty_head ind else v2
    let v4 := setNext v3 ind m.empty_head
    let v5 := setPrev v4 ind NULL_INDEX
    let v6 := setEmpty v5 ind true
    (⟨ind, fh, m.empty_cnt + 1, sub64 m.filled_cnt 1, v6⟩, none)

def SlabManager.clear (m : SlabManager) : SlabManager :=
  SlabManager.initialize m m.elem_vec.length

def SlabManager.size (m : SlabManager) : Nat := m.elem_vec.length

def SlabManager.empty_count (m : SlabManager) : Nat := m.empty_cnt

def SlabManager.filled_count (m : SlabManager) : Nat := m.filled_cnt

/-- Upsize loop of SlabManager::resize: threads the k new slots
    i, i+1, …, i+k-1 one by one onto the head of the free list. -/
def upLoop : Nat → List Elem → Nat → Nat → List Elem × Nat
  | 0, v, head, _ => (v, head)
  | k + 1, v, head, i =>
    let v1 := setPrev v i NULL_INDEX
    let v2 := setNext v1 i head
    let v3 := if head ≠ NULL_INDEX then setPrev v2 head i else v2
    upLoop k v3 i (i + 1)

/-- Backward scan of SlabManager::resize (downsize): starting at slot i and
    walking down, returns (pos, cnt) where pos is the first non-empty slot
    found (NULL_INDEX if none) and cnt counts the empty slots passed. -/
def scanLoop : Nat → List Elem → Nat → Nat × Nat
  | 0, v, cnt =>
    if (getE v 0).is_empty = false then (0, cnt) else (NULL_INDEX, cnt + 1)
  | i + 1, v, cnt =>
    if (getE v (i + 1)).is_empty = false then (i + 1, cnt) else scanLoop i v (cnt + 1)

/-- Body of the relink loop of SlabManager::resize (downsize): if slot i is
    empty, push it onto the head of the rebuilt free list. -/
def relinkStep (v : List Elem) (head cnt i : Nat) : List Elem × Nat × Nat :=
  if (getE v i).is_empty = true then
    if head = NULL_INDEX then
      (setNext (setPrev v i NULL_INDEX) i NULL_INDEX, i, cnt + 1)
    else
      (setNext (setPrev (setPrev v head i) i NULL_INDEX) i head, i, cnt + 1)
  else (v, head, cnt)

/-- Relink loop of SlabManager::resize (downsize): rebuild the free list by
    scanning slots i, i-1, …, 0. -/
def relinkLoop : Nat → List Elem → Nat → Nat → List Elem × Nat × Nat
  | 0, v, head, cnt => relinkStep v head cnt 0
  | i + 1, v, head, cnt =>
    let s := relinkStep v head cnt (i + 1)
    relinkLoop i s.1 s.2.1 s.2.2

def SlabManager.resize (m : SlabManager) (newsize : Nat) : SlabManager :=
  let ss := m.elem_vec.length
  if ss = newsize then m
  else if newsize > ss then
    let v0 := resizeVec m.elem_vec newsize
    let r := upLoop (newsize - ss) v0 m.empty_head ss
    { m with elem_vec := r.1, empty_head := r.2, empty_cnt := m.empty_cnt + (newsize - ss) }
  else
    let ns := if 0 < newsize then newsize else 1
    let sc := scanLoop (ss - 1) m.elem_vec 0
    if sc.1 = NULL_INDEX then
      SlabManager.initialize { m with elem_vec := resizeVec m.elem_vec ns }
        (resizeVec m.elem_vec ns).length
    else if sc.1 = ss - 1 then m
    else if sub64 m.empty_cnt sc.2 < 4 then m
    else
      let v1 := resizeVec m.elem_vec (if ns > sc.1 + 1 then ns else sc.1 + 1)
      let r := relinkLoop (v1.length - 1) v1 NULL_INDEX 0
      { empty_head := r.2.1, filled_head := m.filled_head
      , empty_cnt := r.2.2, filled_cnt := m.filled_cnt, elem_vec := r.1 }

/-- SlabManager::reserve only affects vector capacity, which this model does
    not track; the logical state is unchanged. -/
def SlabManager.reserve (m : SlabManager) (_size : Nat) : SlabManager := m

def SlabManager.resize_to_min (m : SlabManager) : SlabManager := m.resize 1

/-- SlabManager::shrink_to_fit only affects vector capacity, which this model
    does not track; the logical state is unchanged. -/
def SlabManager.shrink_to_fit (m : SlabManager) : SlabManager := m

/-- The free or used list spelled out: isChain v p h l holds when, starting
    from head index h whose prev field must equal p, following next fields
    enumerates exactly the indices in l, ending at NULL_INDEX. -/
def isChain (v : List Elem) : Nat → Nat → List Nat → Bool
  | _, h, [] => h == NULL_INDEX
  | p, h, a :: l =>
    h == a && decide (a < v.length) && (getE v a).prev == p
      && isChain v a (getE v a).next l

/-- Well-formed allocator state, with the free list fl and used list ul made
    explicit: the data-structure invariant of SlabManager. -/
def WF (m : SlabManager) (fl ul : List Nat) : Prop :=
  1 ≤ m.elem_vec.length ∧
  m.elem_vec.length < NULL_INDEX ∧
  isChain m.elem_vec NULL_INDEX m.empty_head fl = true ∧
  isChain m.elem_vec NULL_INDEX m.filled_head ul = true ∧
  (∀ i ∈ fl, (getE m.elem_vec i).is_empty = true) ∧
  (∀ i ∈ ul, (getE m.elem_vec i).is_empty = false) ∧
  (fl ++ ul).Perm (List.range m.elem_vec.length) ∧
  m.empty_cnt = fl.length ∧
  m.filled_cnt = ul.length

instance (m : SlabManager) (fl ul : List Nat) : Decidable (WF m fl ul) := by
  unfold WF
  infer_instance

def InvSM (m : SlabManager) : Prop := ∃ fl ul, WF m fl ul

/-- States reachable through the public interface.  The size bounds on the
    growing operations reflect that a std::vector can never actually reach
    2^64 - 1 elements (allocation would fail long before). -/
inductive Reachable : SlabManager → Prop
  | construct (n : Nat) (h : (if 0 < n then n else 1) < NULL_INDEX) :
      Reachable (SlabManager.construct n)
  | acquire (m : SlabManager) (hm : Reachable m)
      (h : m.elem_vec.length + 1 < NULL_INDEX) : Reachable (m.acquire).1
  | give_back (m : SlabManager) (ind : Nat) (hm : Reachable m) :
      Reachable (m.give_back ind).1
  | clear (m : SlabManager) (hm : Reachable m) : Reachable m.clear
  | resize (m : SlabManager) (newsize : Nat) (hm : Reachable m)
      (h : newsize < NULL_INDEX) : Reachable (m.resize newsize)
  | reserve (m : SlabManager) (k : Nat) (hm : Reachable m) : Reachable (m.reserve k)
  | resize_to_min (m : SlabManager) (hm : Reachable m) : Reachable m.resize_to_min
  | shrink_to_fit (m : SlabManager) (hm : Reachable m) : Reachable m.shrink_to_fit


/-- The used-list unlink writes of SlabManager::give_back(x): fix the prev of
    x's successor and the next of x's predecessor (each only when present). -/
def unlinkVec (v : List Elem) (x : Nat) : List Elem :=
  let p := (getE v x).prev
  let nx := (getE v x).next
  let v1 := if nx ≠ NULL_INDEX then setPrev v nx p else v
  if p ≠ NULL_INDEX then setNext v1 p nx else v1

/-- The free-head unlink write of SlabManager::acquire: clear the prev field
    of the new head g, when there is one. -/
def popHeadVec (v : List Elem) (g : Nat) : List Elem :=
  if g ≠ NULL_INDEX then setPrev v g NULL_INDEX else v

/-- The shared "link slot x at the head of the list with old head h" write
    sequence of SlabManager::acquire and SlabManager::give_back, including
    the final is_empty update to b. -/
def linkHeadVec (v : List Elem) (x h : Nat) (b : Bool) : List Elem :=
  setEmpty (setPrev (setNext (if h ≠ NULL_INDEX then setPrev v h x else v) x h) x NULL_INDEX) x b

/-- Array length produced by an accepted downsize in SlabManager::resize:
    max(newsize clamped to at least 1, pos + 1), where pos is the highest
    used index. -/
def downTarget (newsize pos : Nat) : Nat :=
  if (if 0 < newsize then newsize else 1) > pos + 1
  then (if 0 < newsize then newsize else 1) else pos + 1

/-- Number of consecutive free slots at the end of the array, walking the
    indices from the last one downwards.  This is the "reclaimable trailing
    free region" of the specification, written out from the spec's wording in
    order to state claim C6. -/
def trailingFreeCount (v : List Elem) : Nat :=
  (((List.range v.length).reverse).takeWhile (fun i => (getE v i).is_empty)).length

/-- State component of acquire, for building concrete states. -/
def acq1 (m : SlabManager) : SlabManager := (m.acquire).1

/-- State component of give_back, for building concrete states. -/
def gb1 (m : SlabManager) (i : Nat) : SlabManager := (m.give_back i).1

/-- Concrete state used for claims C6 and C10: construct(1), ten acquires
    (returning indices 0–9), then give_back of 0,…,7 and of 9.  Slot 8 is the
    only used slot; the free list is 9 → 7 → 6 → ⋯ → 0, so exactly one free
    slot (index 9) trails the last used slot. -/
def cexC6 : SlabManager :=
  [0, 1, 2, 3, 4, 5, 6, 7, 9].foldl gb1
    ((List.range 10).foldl (fun m _ => acq1 m) (SlabManager.construct 1))

theorem length_setE (v : List Elem) (i : Nat) (e : Elem) :
    (setE v i e).length = v.length := by
  induction v generalizing i with
  | nil => rfl
  | cons x v ih =>
    cases i with
    | zero => rfl
    | succ j => simp only [setE, List.length_cons, ih]

theorem setE_oob (v : List Elem) (i : Nat) (e : Elem) (h : v.length ≤ i) :
    setE v i e = v := by
  induction v generalizing i with
  | nil => rfl
  | cons x v ih =>
    cases i with
    | zero => exact absurd h (by simp)
    | succ j => simp only [setE, List.cons.injEq, true_and]; exact ih j (by simpa using h)

theorem getE_setE_self (v : List Elem) (i : Nat) (e : Elem) (h : i < v.length) :
    getE (setE v i e) i = e := by
  induction v generalizing i with
  | nil => simp at h
  | cons x v ih =>
    cases i with
    | zero => rfl
    | succ j => exact ih j (by simpa using h)

theorem getE_setE_ne (v : List Elem) (i j : Nat) (e : Elem) (h : j ≠ i) :
    getE (setE v i e) j = getE v j := by
  induction v generalizing i j with
  | nil => rfl
  | cons x v ih =>
    cases i with
    | zero =>
      cases j with
      | zero => exact absurd rfl h
      | succ j2 => rfl
    | succ i2 =>
      cases j with
      | zero => rfl
      | succ j2 => exact ih i2 j2 (fun hh => h (by rw [hh]))

theorem length_setPrev (v : List Elem) (i x : Nat) :
    (setPrev v i x).length = v.length := length_setE v i _

theorem length_setNext (v : List Elem) (i x : Nat) :
    (setNext v i x).length = v.length := length_setE v i _

theorem length_setEmpty (v : List Elem) (i : Nat) (b : Bool) :
    (setEmpty v i b).length = v.length := length_setE v i _

theorem getE_setPrev_self (v : List Elem) (i x : Nat) (h : i < v.length) :
    getE (setPrev v i x) i = { getE v i with prev := x } := getE_setE_self v i _ h

theorem getE_setNext_self (v : List Elem) (i x : Nat) (h : i < v.length) :
    getE (setNext v i x) i = { getE v i with next := x } := getE_setE_self v i _ h

theorem getE_setEmpty_self (v : List Elem) (i : Nat) (b : Bool) (h : i < v.length) :
    getE (setEmpty v i b) i = { getE v i with is_empty := b } := getE_setE_self v i _ h

theorem getE_setPrev_ne (v : List Elem) (i j x : Nat) (h : j ≠ i) :
    getE (setPrev v i x) j = getE v j := getE_setE_ne v i j _ h

theorem getE_setNext_ne (v : List Elem) (i j x : Nat) (h : j ≠ i) :
    getE (setNext v i x) j = getE v j := getE_setE_ne v i j _ h

theorem getE_setEmpty_ne (v : List Elem) (i j : Nat) (b : Bool) (h : j ≠ i) :
    getE (setEmpty v i b) j = getE v j := getE_setE_ne v i j _ h

theorem isEmpty_setPrev (v : List Elem) (i x j : Nat) :
    (getE (setPrev v i x) j).is_empty = (getE v j).is_empty := by
  by_cases hj : j = i
  · subst hj
    by_cases hi : j < v.length
    · rw [getE_setPrev_self v j x hi]
    · rw [setPrev, setE_oob v j _ (Nat.le_of_not_lt hi)]
  · rw [getE_setPrev_ne v i j x hj]

theorem isEmpty_setNext (v : List Elem) (i x j : Nat) :
    (getE (setNext v i x) j).is_empty = (getE v j).is_empty := by
  by_cases hj : j = i
  · subst hj
    by_cases hi : j < v.length
    · rw [getE_setNext_self v j x hi]
    · rw [setNext, setE_oob v j _ (Nat.le_of_not_lt hi)]
  · rw [getE_setNext_ne v i j x hj]

theorem getE_append_left (v w : List Elem) (i : Nat) (h : i < v.length) :
    getE (v ++ w) i = getE v i := by
  induction v generalizing i with
  | nil => simp at h
  | cons x v ih =>
    cases i with
    | zero => rfl
    | succ j => exact ih j (by simpa using h)

theorem getE_append_end (v : List Elem) (e : Elem) :
    getE (v ++ [e]) v.length = e := by
  induction v with
  | nil => rfl
  | cons x v ih => simpa using ih

theorem getE_take (v : List Elem) (k i : Nat) (h : i < k) :
    getE (v.take k) i = getE v i := by
  induction v generalizing k i with
  | nil => simp [List.take_nil]
  | cons x v ih =>
    cases k with
    | zero => simp at h
    | succ k2 =>
      cases i with
      | zero => rfl
      | succ j => exact ih k2 j (Nat.lt_of_succ_lt_succ h)

theorem getE_oob (v : List Elem) (i : Nat) (h : v.length ≤ i) :
    getE v i = Elem.def0 := by
  induction v generalizing i with
  | nil => rfl
  | cons x v ih =>
    cases i with
    | zero => simp at h
    | succ j => exact ih j (by simpa using h)

theorem sub64_small (a b : Nat) (hba : b ≤ a) (ha : a < U64) : sub64 a b = a - b := by
  unfold sub64
  rw [Nat.add_sub_assoc hba]
  rw [Nat.add_mod_left]
  exact Nat.mod_eq_of_lt (Nat.lt_of_le_of_lt (Nat.sub_le a b) ha)

theorem prev_setNext (v : List Elem) (i x j : Nat) :
    (getE (setNext v i x) j).prev = (getE v j).prev := by
  by_cases hj : j = i
  · subst hj
    by_cases hi : j < v.length
    · rw [getE_setNext_self v j x hi]
    · rw [setNext, setE_oob v j _ (Nat.le_of_not_lt hi)]
  · rw [getE_setNext_ne v i j x hj]

theorem next_setPrev (v : List Elem) (i x j : Nat) :
    (getE (setPrev v i x) j).next = (getE v j).next := by
  by_cases hj : j = i
  · subst hj
    by_cases hi : j < v.length
    · rw [getE_setPrev_self v j x hi]
    · rw [setPrev, setE_oob v j _ (Nat.le_of_not_lt hi)]
  · rw [getE_setPrev_ne v i j x hj]

theorem prev_setEmpty (v : List Elem) (i : Nat) (b : Bool) (j : Nat) :
    (getE (setEmpty v i b) j).prev = (getE v j).prev := by
  by_cases hj : j = i
  · subst hj
    by_cases hi : j < v.length
    · rw [getE_setEmpty_self v j b hi]
    · rw [setEmpty, setE_oob v j _ (Nat.le_of_not_lt hi)]
  · rw [getE_setEmpty_ne v i j b hj]

theorem next_setEmpty (v : List Elem) (i : Nat) (b : Bool) (j : Nat) :
    (getE (setEmpty v i b) j).next = (getE v j).next := by
  by_cases hj : j = i
  · subst hj
    by_cases hi : j < v.length
    · rw [getE_setEmpty_self v j b hi]
    · rw [setEmpty, setE_oob v j _ (Nat.le_of_not_lt hi)]
  · rw [getE_setEmpty_ne v i j b hj]

theorem isChain_nil_iff (v : List Elem) (p h : Nat) :
    isChain v p h [] = true ↔ h = NULL_INDEX := by
  simp [isChain]

theorem isChain_cons_iff (v : List Elem) (p h a : Nat) (l : List Nat) :
    isChain v p h (a :: l) = true ↔
      h = a ∧ a < v.length ∧ (getE v a).prev = p ∧
        isChain v a (getE v a).next l = true := by
  simp [isChain, and_assoc]

theorem isChain_mem_lt (v : List Elem) (l : List Nat) :
    ∀ (p h : Nat), isChain v p h l = true → ∀ i ∈ l, i < v.length := by
  induction l with
  | nil => intro p h _ i hi; simp at hi
  | cons a l ih =>
    intro p h hch i hi
    rw [isChain_cons_iff] at hch
    rcases List.mem_cons.mp hi with h1 | h2
    · subst h1; exact hch.2.1
    · exact ih a _ hch.2.2.2 i h2

theorem isChain_mono (v w : List Elem) (l : List Nat) :
    ∀ (p h : Nat), isChain v p h l = true →
    (∀ i ∈ l, (getE w i).prev = (getE v i).prev ∧ (getE w i).next = (getE v i).next) →
    (∀ i ∈ l, i < v.length → i < w.length) →
    isChain w p h l = true := by
  induction l with
  | nil => intro p h hch _ _; rw [isChain_nil_iff] at hch ⊢; exact hch
  | cons a l ih =>
    intro p h hch hpn hlt
    rw [isChain_cons_iff] at hch ⊢
    obtain ⟨h1, h2, h3, h4⟩ := hch
    have ha := hpn a (List.mem_cons_self a l)
    refine ⟨h1, hlt a (List.mem_cons_self a l) h2, by rw [ha.1, h3], ?_⟩
    rw [ha.2]
    exact ih a _ h4 (fun i hi => hpn i (List.mem_cons_of_mem a hi))
      (fun i hi => hlt i (List.mem_cons_of_mem a hi))

theorem isChain_rehead (v w : List Elem) (p p' h : Nat) (l : List Nat)
    (hch : isChain v p h l = true)
    (hnd : l.Nodup)
    (hhead : l ≠ [] → (getE w h).prev = p' ∧ (getE w h).next = (getE v h).next)
    (hrest : ∀ i ∈ l, i ≠ h →
      (getE w i).prev = (getE v i).prev ∧ (getE w i).next = (getE v i).next)
    (hlt : ∀ i ∈ l, i < v.length → i < w.length) :
    isChain w p' h l = true := by
  cases l with
  | nil => rw [isChain_nil_iff] at hch ⊢; exact hch
  | cons a l' =>
    rw [isChain_cons_iff] at hch ⊢
    obtain ⟨h1, h2, h3, h4⟩ := hch
    subst h1
    obtain ⟨hp, hn⟩ := hhead (by simp)
    refine ⟨rfl, hlt _ (List.mem_cons_self _ _) h2, hp, ?_⟩
    rw [hn]
    apply isChain_mono v w l' _ _ h4
    · intro i hi
      exact hrest i (List.mem_cons_of_mem _ hi)
        (fun hia => (List.nodup_cons.mp hnd).1 (hia ▸ hi))
    · intro i hi; exact hlt i (List.mem_cons_of_mem _ hi)

theorem isChain_push (v w : List Elem) (h x : Nat) (S : List Nat)
    (hch : isChain v NULL_INDEX h S = true) (hnd : S.Nodup)
    (hxw : x < w.length)
    (hwp : (getE w x).prev = NULL_INDEX) (hwn : (getE w x).next = h)
    (hhead : S ≠ [] → (getE w h).prev = x ∧ (getE w h).next = (getE v h).next)
    (hrest : ∀ i ∈ S, i ≠ h →
      (getE w i).prev = (getE v i).prev ∧ (getE w i).next = (getE v i).next)
    (hlt : ∀ i ∈ S, i < v.length → i < w.length) :
    isChain w NULL_INDEX x (x :: S) = true := by
  rw [isChain_cons_iff]
  refine ⟨rfl, hxw, hwp, ?_⟩
  rw [hwn]
  exact isChain_rehead v w NULL_INDEX x h S hch hnd hhead hrest hlt

theorem isChain_prev_mid (v : List Elem) (x : Nat) (u2 : List Nat) :
    ∀ (u1 : List Nat) (q h : Nat), isChain v q h (u1 ++ x :: u2) = true →
      (u1 = [] → (getE v x).prev = q) ∧ (u1 ≠ [] → (getE v x).prev ∈ u1) := by
  intro u1
  induction u1 with
  | nil =>
    intro q h hch
    rw [List.nil_append, isChain_cons_iff] at hch
    exact ⟨fun _ => hch.2.2.1, fun hne => absurd rfl hne⟩
  | cons a u1' ih =>
    intro q h hch
    rw [List.cons_append, isChain_cons_iff] at hch
    refine ⟨fun hh => by simp at hh, fun _ => ?_⟩
    rcases Classical.em (u1' = []) with he | he
    · subst he
      rw [(ih a _ hch.2.2.2).1 rfl]
      exact List.mem_cons_self a _
    · exact List.mem_cons_of_mem a ((ih a _ hch.2.2.2).2 he)

theorem isChain_next_mid (v : List Elem) (x : Nat) (u2 : List Nat) :
    ∀ (u1 : List Nat) (q h : Nat), isChain v q h (u1 ++ x :: u2) = true →
      (u2 = [] → (getE v x).next = NULL_INDEX) ∧
      (∀ y u2', u2 = y :: u2' → (getE v x).next = y) := by
  intro u1
  induction u1 with
  | nil =>
    intro q h hch
    rw [List.nil_append, isChain_cons_iff] at hch
    obtain ⟨_, _, _, h4⟩ := hch
    constructor
    · intro he; subst he; exact (isChain_nil_iff ..).mp h4
    · intro y u2' he; subst he; exact ((isChain_cons_iff ..).mp h4).1
  | cons a u1' ih =>
    intro q h hch
    rw [List.cons_append, isChain_cons_iff] at hch
    exact ih a _ hch.2.2.2

theorem length_unlinkVec (v : List Elem) (x : Nat) :
    (unlinkVec v x).length = v.length := by
  simp only [unlinkVec]
  split_ifs <;> simp [length_setNext, length_setPrev]

theorem isEmpty_unlinkVec (v : List Elem) (x j : Nat) :
    (getE (unlinkVec v x) j).is_empty = (getE v j).is_empty := by
  simp only [unlinkVec]
  split_ifs <;> simp [isEmpty_setNext, isEmpty_setPrev]

theorem prev_unlinkVec_frame (v : List Elem) (x j : Nat)
    (hj : j ≠ (getE v x).next) :
    (getE (unlinkVec v x) j).prev = (getE v j).prev := by
  simp only [unlinkVec]
  split_ifs <;> simp [prev_setNext, getE_setPrev_ne _ _ _ _ hj]

theorem next_unlinkVec_frame (v : List Elem) (x j : Nat)
    (hj : j ≠ (getE v x).prev) :
    (getE (unlinkVec v x) j).next = (getE v j).next := by
  simp only [unlinkVec]
  split_ifs <;> simp [getE_setNext_ne _ _ _ _ hj, next_setPrev]

theorem prev_unlinkVec_nx (v : List Elem) (x : Nat)
    (hnx : (getE v x).next ≠ NULL_INDEX) (hb : (getE v x).next < v.length) :
    (getE (unlinkVec v x) (getE v x).next).prev = (getE v x).prev := by
  simp only [unlinkVec]
  rw [if_pos hnx]
  by_cases hp1 : (getE v x).prev ≠ NULL_INDEX
  · rw [if_pos hp1, prev_setNext, getE_setPrev_self _ _ _ hb]
  · rw [if_neg hp1, getE_setPrev_self _ _ _ hb]

theorem next_unlinkVec_p (v : List Elem) (x : Nat)
    (hp : (getE v x).prev ≠ NULL_INDEX) (hb : (getE v x).prev < v.length) :
    (getE (unlinkVec v x) (getE v x).prev).next = (getE v x).next := by
  simp only [unlinkVec]
  rw [if_pos hp]
  by_cases hn1 : (getE v x).next ≠ NULL_INDEX
  · rw [if_pos hn1, getE_setNext_self]
    rw [length_setPrev]
    exact hb
  · rw [if_neg hn1, getE_setNext_self _ _ _ hb]

theorem isChain_unlink (v : List Elem) (x : Nat) (u2 : List Nat) :
    ∀ (u1 : List Nat) (q h : Nat),
      isChain v q h (u1 ++ x :: u2) = true →
      (u1 ++ x :: u2).Nodup →
      q ∉ u1 ++ x :: u2 →
      v.length ≤ NULL_INDEX →
      isChain (unlinkVec v x) q
        (if u1 = [] then (getE v x).next else h) (u1 ++ u2) = true := by
  intro u1
  induction u1 with
  | nil =>
    intro q h hch hnd hq hlen
    rw [List.nil_append, isChain_cons_iff] at hch
    obtain ⟨hhx, hxlt, hpv, htail⟩ := hch
    rw [if_pos rfl, List.nil_append]
    cases u2 with
    | nil =>
      rw [isChain_nil_iff] at htail ⊢
      exact htail
    | cons y u2' =>
      rw [isChain_cons_iff] at htail
      obtain ⟨hny, hylt, hpy, htail2⟩ := htail
      have hynull : y ≠ NULL_INDEX := Nat.ne_of_lt (Nat.lt_of_lt_of_le hylt hlen)
      have hqy : y ≠ q := by
        intro hc
        exact hq (by rw [← hc]; exact List.mem_cons_of_mem _ (List.mem_cons_self _ _))
      rw [isChain_cons_iff]
      have hprevy : (getE (unlinkVec v x) y).prev = (getE v x).prev := by
        have := prev_unlinkVec_nx v x (by rw [hny]; exact hynull) (by rw [hny]; exact hylt)
        rw [hny] at this
        exact this
      refine ⟨hny, by rw [length_unlinkVec]; exact hylt, by rw [hprevy, hpv], ?_⟩
      have hnexty : (getE (unlinkVec v x) y).next = (getE v y).next := by
        apply next_unlinkVec_frame
        rw [hpv]
        exact hqy
      rw [hnexty]
      apply isChain_mono v _ u2' _ _ htail2
      · intro i hi
        have hiy : i ≠ y := by
          intro hc
          exact (List.nodup_cons.mp (List.nodup_cons.mp hnd).2).1 (hc ▸ hi)
        have hiq : i ≠ q := by
          intro hc
          exact hq (by
            rw [← hc]
            exact List.mem_cons_of_mem _ (List.mem_cons_of_mem _ hi))
        constructor
        · exact prev_unlinkVec_frame v x i (by rw [hny]; exact hiy)
        · exact next_unlinkVec_frame v x i (by rw [hpv]; exact hiq)
      · intro i _ hi
        rw [length_unlinkVec]
        exact hi
  | cons a u1' ih =>
    intro q h hch hnd hq hlen
    rw [List.cons_append, isChain_cons_iff] at hch
    obtain ⟨hha, halt, hpa, htail⟩ := hch
    have hamem : a ∉ u1' ++ x :: u2 := (List.nodup_cons.mp hnd).1
    have hnd' : (u1' ++ x :: u2).Nodup := (List.nodup_cons.mp hnd).2
    have hih := ih a (getE v a).next htail hnd' hamem hlen
    have hanull : a ≠ NULL_INDEX := Nat.ne_of_lt (Nat.lt_of_lt_of_le halt hlen)
    have hanx : a ≠ (getE v x).next := by
      have hnm := isChain_next_mid v x u2 u1' a (getE v a).next htail
      cases u2 with
      | nil => rw [hnm.1 rfl]; exact hanull
      | cons y u2' =>
        rw [hnm.2 y u2' rfl]
        intro hc
        exact hamem (by
          rw [hc]
          exact List.mem_append_right _ (List.mem_cons_of_mem _ (List.mem_cons_self _ _)))
    rw [if_neg (by simp), List.cons_append, isChain_cons_iff]
    refine ⟨hha, by rw [length_unlinkVec]; exact halt,
      by rw [prev_unlinkVec_frame v x a hanx, hpa], ?_⟩
    cases he : u1' with
    | nil =>
      rw [he, List.nil_append, isChain_cons_iff] at htail
      obtain ⟨hax, hxlt2, hpx, _⟩ := htail
      have hnexta : (getE (unlinkVec v x) a).next = (getE v x).next := by
        have := next_unlinkVec_p v x (by rw [hpx]; exact hanull) (by rw [hpx]; exact halt)
        rw [hpx] at this
        exact this
      rw [hnexta]
      rw [he] at hih
      simpa using hih
    | cons b u1'' =>
      have hpmem : (getE v x).prev ∈ u1' :=
        (isChain_prev_mid v x u2 u1' a (getE v a).next htail).2 (by rw [he]; simp)
      have hap : a ≠ (getE v x).prev := by
        intro hc
        exact hamem (List.mem_append_left _ (hc ▸ hpmem))
      rw [next_unlinkVec_frame v x a hap]
      rw [he] at hih
      simpa using hih

theorem length_popHeadVec (v : List Elem) (g : Nat) :
    (popHeadVec v g).length = v.length := by
  simp only [popHeadVec]
  split_ifs <;> simp [length_setPrev]

theorem getE_popHeadVec_frame (v : List Elem) (g j : Nat) (hj : j ≠ g) :
    getE (popHeadVec v g) j = getE v j := by
  simp only [popHeadVec]
  split_ifs <;> simp [getE_setPrev_ne _ _ _ _ hj]

theorem getE_popHeadVec_g (v : List Elem) (g : Nat) (hg : g ≠ NULL_INDEX)
    (hb : g < v.length) :
    getE (popHeadVec v g) g = { getE v g with prev := NULL_INDEX } := by
  simp only [popHeadVec]
  rw [if_pos hg, getE_setPrev_self _ _ _ hb]

theorem isEmpty_popHeadVec (v : List Elem) (g j : Nat) :
    (getE (popHeadVec v g) j).is_empty = (getE v j).is_empty := by
  simp only [popHeadVec]
  split_ifs <;> simp [isEmpty_setPrev]

theorem length_linkHeadVec (v : List Elem) (x h : Nat) (b : Bool) :
    (linkHeadVec v x h b).length = v.length := by
  simp only [linkHeadVec]
  split_ifs <;> simp [length_setEmpty, length_setPrev, length_setNext]

theorem getE_linkHeadVec_x (v : List Elem) (x h : Nat) (b : Bool)
    (hx : x < v.length) :
    getE (linkHeadVec v x h b) x = ⟨b, NULL_INDEX, h⟩ := by
  simp only [linkHeadVec]
  have h1 : x < (if h ≠ NULL_INDEX then setPrev v h x else v).length := by
    split_ifs <;> simp [length_setPrev, hx]
  have h2 : x < (setNext (if h ≠ NULL_INDEX then setPrev v h x else v) x h).length := by
    rw [length_setNext]; exact h1
  have h3 : x < (setPrev (setNext (if h ≠ NULL_INDEX then setPrev v h x else v) x h)
      x NULL_INDEX).length := by
    rw [length_setPrev]; exact h2
  rw [getE_setEmpty_self _ _ _ h3, getE_setPrev_self _ _ _ h2, getE_setNext_self _ _ _ h1]

theorem getE_linkHeadVec_frame (v : List Elem) (x h : Nat) (b : Bool) (j : Nat)
    (hjx : j ≠ x) (hjh : j ≠ h) :
    getE (linkHeadVec v x h b) j = getE v j := by
  simp only [linkHeadVec]
  rw [getE_setEmpty_ne _ _ _ _ hjx, getE_setPrev_ne _ _ _ _ hjx, getE_setNext_ne _ _ _ _ hjx]
  split_ifs <;> simp [getE_setPrev_ne _ _ _ _ hjh]

theorem getE_linkHeadVec_h (v : List Elem) (x h : Nat) (b : Bool)
    (hh : h ≠ NULL_INDEX) (hb : h < v.length) (hhx : h ≠ x) :
    getE (linkHeadVec v x h b) h = { getE v h with prev := x } := by
  simp only [linkHeadVec]
  rw [getE_setEmpty_ne _ _ _ _ hhx, getE_setPrev_ne _ _ _ _ hhx, getE_setNext_ne _ _ _ _ hhx,
    if_pos hh, getE_setPrev_self _ _ _ hb]

theorem isEmpty_linkHeadVec_ne (v : List Elem) (x h : Nat) (b : Bool) (j : Nat)
    (hjx : j ≠ x) :
    (getE (linkHeadVec v x h b) j).is_empty = (getE v j).is_empty := by
  simp only [linkHeadVec]
  rw [getE_setEmpty_ne _ _ _ _ hjx]
  split_ifs <;> simp [isEmpty_setPrev, isEmpty_setNext]

theorem acquire_pop_eq (m : SlabManager) (hcond : m.empty_head ≠ NULL_INDEX) :
    m.acquire =
      (⟨(getE m.elem_vec m.empty_head).next, m.empty_head,
        sub64 m.empty_cnt 1, m.filled_cnt + 1,
        linkHeadVec (popHeadVec m.elem_vec (getE m.elem_vec m.empty_head).next)
          m.empty_head m.filled_head false⟩, m.empty_head) := by
  simp only [SlabManager.acquire, linkHeadVec, popHeadVec]
  rw [if_pos hcond]

theorem acquire_app_eq (m : SlabManager) (hcond : m.empty_head = NULL_INDEX) :
    m.acquire =
      (⟨m.empty_head, m.elem_vec.length, m.empty_cnt, m.filled_cnt + 1,
        linkHeadVec (m.elem_vec ++ [Elem.def0]) m.elem_vec.length
          m.filled_head false⟩, m.elem_vec.length) := by
  simp only [SlabManager.acquire, linkHeadVec]
  rw [if_neg (by simp [hcond])]

theorem give_back_oob_eq (m : SlabManager) (ind : Nat)
    (h : m.elem_vec.length ≤ ind) :
    m.give_back ind = (m, some SMErr.outOfRange) := by
  simp only [SlabManager.give_back, SlabManager.is_slot_empty]
  rw [if_pos h]

theorem give_back_dbl_eq (m : SlabManager) (ind : Nat)
    (h : ind < m.elem_vec.length) (hflag : (getE m.elem_vec ind).is_empty = true) :
    m.give_back ind = (m, some SMErr.logicError) := by
  simp only [SlabManager.give_back, SlabManager.is_slot_empty]
  rw [if_neg (Nat.not_le.mpr h), hflag]

theorem give_back_ok_eq (m : SlabManager) (ind : Nat)
    (h : ind < m.elem_vec.length) (hflag : (getE m.elem_vec ind).is_empty = false) :
    m.give_back ind =
      (⟨ind,
        (if (getE m.elem_vec ind).prev ≠ NULL_INDEX then m.filled_head
         else (getE m.elem_vec ind).next),
        m.empty_cnt + 1, sub64 m.filled_cnt 1,
        linkHeadVec (unlinkVec m.elem_vec ind) ind m.empty_head true⟩, none) := by
  simp only [SlabManager.give_back, SlabManager.is_slot_empty, linkHeadVec, unlinkVec]
  rw [if_neg (Nat.not_le.mpr h), hflag]

theorem NULL_lt_U64 : NULL_INDEX < U64 := by
  norm_num [NULL_INDEX, U64]

theorem WF_nodup (m : SlabManager) (fl ul : List Nat) (hwf : WF m fl ul) :
    (fl ++ ul).Nodup := by
  obtain ⟨_, _, _, _, _, _, hperm, _, _⟩ := hwf
  exact (hperm.nodup_iff).mpr (List.nodup_range _)

theorem WF_length_sum (m : SlabManager) (fl ul : List Nat) (hwf : WF m fl ul) :
    fl.length + ul.length = m.elem_vec.length := by
  obtain ⟨_, _, _, _, _, _, hperm, _, _⟩ := hwf
  have := hperm.length_eq
  simpa using this

theorem WF_mem_free (m : SlabManager) (fl ul : List Nat) (hwf : WF m fl ul) (i : Nat) :
    i ∈ fl ↔ (i < m.elem_vec.length ∧ (getE m.elem_vec i).is_empty = true) := by
  obtain ⟨_, _, hfc, _, hff, huf, hperm, _, _⟩ := hwf
  constructor
  · intro hi
    exact ⟨isChain_mem_lt _ _ _ _ hfc i hi, hff i hi⟩
  · rintro ⟨hilen, hflag⟩
    have : i ∈ fl ++ ul := (hperm.mem_iff).mpr (List.mem_range.mpr hilen)
    rcases List.mem_append.mp this with h | h
    · exact h
    · rw [huf i h] at hflag
      exact absurd hflag (by simp)

theorem WF_mem_used (m : SlabManager) (fl ul : List Nat) (hwf : WF m fl ul) (i : Nat) :
    i ∈ ul ↔ (i < m.elem_vec.length ∧ (getE m.elem_vec i).is_empty = false) := by
  obtain ⟨_, _, _, huc, hff, huf, hperm, _, _⟩ := hwf
  constructor
  · intro hi
    exact ⟨isChain_mem_lt _ _ _ _ huc i hi, huf i hi⟩
  · rintro ⟨hilen, hflag⟩
    have : i ∈ fl ++ ul := (hperm.mem_iff).mpr (List.mem_range.mpr hilen)
    rcases List.mem_append.mp this with h | h
    · rw [hff i h] at hflag
      exact absurd hflag (by simp)
    · exact h

theorem acquire_cons_spec (m : SlabManager) (f : Nat) (fs ul : List Nat)
    (hwf : WF m (f :: fs) ul) :
    (m.acquire).2 = f ∧
    (m.acquire).1.elem_vec.length = m.elem_vec.length ∧
    (m.acquire).1.filled_head = f ∧
    (getE (m.acquire).1.elem_vec f).is_empty = false ∧
    WF (m.acquire).1 fs (f :: ul) := by
  have hwf0 := hwf
  obtain ⟨hpos, hlen, hfc, huc, hff, huf, hperm, hec, hfcnt⟩ := hwf
  rw [isChain_cons_iff] at hfc
  obtain ⟨hhf, hflt, hfprev, hftail⟩ := hfc
  have hndall : ((f :: fs) ++ ul).Nodup := WF_nodup _ _ _ hwf0
  have hndfs : fs.Nodup := by
    have h1 : (f :: fs).Nodup := (List.nodup_append.mp hndall).1
    exact (List.nodup_cons.mp h1).2
  have hfnotfs : f ∉ fs := by
    have h1 : (f :: fs).Nodup := (List.nodup_append.mp hndall).1
    exact (List.nodup_cons.mp h1).1
  have hndu : ul.Nodup := (List.nodup_append.mp hndall).2.1
  have hflagf : (getE m.elem_vec f).is_empty = true := hff f (List.mem_cons_self _ _)
  have hfnull : f ≠ NULL_INDEX := Nat.ne_of_lt (Nat.lt_trans hflt hlen)
  have hcond : m.empty_head ≠ NULL_INDEX := by rw [hhf]; exact hfnull
  have hfh_ne_f : m.filled_head ≠ f := by
    cases ul with
    | nil =>
      rw [(isChain_nil_iff ..).mp huc]
      exact fun hc => hfnull hc.symm
    | cons y ul' =>
      have h1 := (isChain_cons_iff ..).mp huc
      rw [h1.1]
      intro hc
      have := huf y (List.mem_cons_self _ _)
      rw [hc, hflagf] at this
      exact absurd this (by simp)
  have hulflag : ∀ i ∈ ul, (getE m.elem_vec i).is_empty = false := huf
  have hfsflag : ∀ i ∈ fs, (getE m.elem_vec i).is_empty = true :=
    fun i hi => hff i (List.mem_cons_of_mem _ hi)
  have hfs_ne_fh : ∀ i ∈ fs, i ≠ m.filled_head := by
    intro i hi
    cases ul with
    | nil =>
      rw [(isChain_nil_iff ..).mp huc]
      exact Nat.ne_of_lt (Nat.lt_trans
        (isChain_mem_lt _ _ _ _ hftail i hi) hlen)
    | cons y ul' =>
      have h1 := (isChain_cons_iff ..).mp huc
      rw [h1.1]
      intro hc
      have := hulflag y (List.mem_cons_self _ _)
      rw [← hc, hfsflag i hi] at this
      exact absurd this (by simp)
  have hacq := acquire_pop_eq m hcond
  rw [hhf] at hacq
  rw [hacq]
  refine ⟨rfl, ?_, rfl, ?_, ?_⟩
  · simp only
    rw [length_linkHeadVec, length_popHeadVec]
  · simp only
    rw [getE_linkHeadVec_x]
    rw [length_popHeadVec]
    exact hflt
  · have hlenw : (linkHeadVec (popHeadVec m.elem_vec (getE m.elem_vec f).next) f
        m.filled_head false).length = m.elem_vec.length := by
      rw [length_linkHeadVec, length_popHeadVec]
    have hgetf : getE (linkHeadVec (popHeadVec m.elem_vec (getE m.elem_vec f).next) f
        m.filled_head false) f = ⟨false, NULL_INDEX, m.filled_head⟩ := by
      rw [getE_linkHeadVec_x]
      rw [length_popHeadVec]
      exact hflt
    have hframe : ∀ i, i ≠ f → i ≠ m.filled_head → i ≠ (getE m.elem_vec f).next →
        getE (linkHeadVec (popHeadVec m.elem_vec (getE m.elem_vec f).next) f
          m.filled_head false) i = getE m.elem_vec i := by
      intro i h1 h2 h3
      rw [getE_linkHeadVec_frame _ _ _ _ _ h1 h2, getE_popHeadVec_frame _ _ _ h3]
    unfold WF
    simp only
    rw [hlenw]
    refine ⟨hpos, hlen, ?_, ?_, ?_, ?_, ?_, ?_, ?_⟩
    · -- free chain: isChain w NULL (getE v f).next fs
      apply isChain_rehead m.elem_vec _ f NULL_INDEX _ fs hftail hndfs
      · intro hne
        obtain ⟨g, fs', rfl⟩ := List.exists_cons_of_ne_nil hne
        have h1 := (isChain_cons_iff ..).mp hftail
        obtain ⟨hg, hglt, _, _⟩ := h1
        have hgnull : (getE m.elem_vec f).next ≠ NULL_INDEX := by
          rw [hg]; exact Nat.ne_of_lt (Nat.lt_trans hglt hlen)
        have hgne_f : (getE m.elem_vec f).next ≠ f := by
          rw [hg]; intro hc; exact hfnotfs (hc ▸ List.mem_cons_self _ _)
        have hgne_fh : (getE m.elem_vec f).next ≠ m.filled_head := by
          rw [hg]; exact hfs_ne_fh g (List.mem_cons_self _ _)
        have : getE (linkHeadVec (popHeadVec m.elem_vec (getE m.elem_vec f).next) f
            m.filled_head false) (getE m.elem_vec f).next
            = { getE m.elem_vec (getE m.elem_vec f).next with prev := NULL_INDEX } := by
          rw [getE_linkHeadVec_frame _ _ _ _ _ hgne_f hgne_fh]
          rw [getE_popHeadVec_g _ _ hgnull (by rw [hg]; exact hglt)]
        rw [this]
        exact ⟨rfl, rfl⟩
      · intro i hi hine
        have h1 : i ≠ f := fun hc => hfnotfs (hc ▸ hi)
        have h2 : i ≠ m.filled_head := hfs_ne_fh i hi
        rw [hframe i h1 h2 hine]
        exact ⟨rfl, rfl⟩
      · intro i _ hi
        rw [hlenw]
        exact hi
    · -- used chain: isChain w NULL f (f :: ul)
      apply isChain_push m.elem_vec _ m.filled_head f ul huc hndu
      · rw [hlenw]; exact hflt
      · rw [hgetf]
      · rw [hgetf]
      · intro hne
        obtain ⟨y, ul', rfl⟩ := List.exists_cons_of_ne_nil hne
        have h1 := (isChain_cons_iff ..).mp huc
        obtain ⟨hy, hylt, _, _⟩ := h1
        have hyflag : (getE m.elem_vec m.filled_head).is_empty = false := by
          rw [hy]; exact hulflag y (List.mem_cons_self _ _)
        have hfh_null : m.filled_head ≠ NULL_INDEX := by
          rw [hy]; exact Nat.ne_of_lt (Nat.lt_trans hylt hlen)
        have hfh_ne_eh : m.filled_head ≠ (getE m.elem_vec f).next := by
          cases fs with
          | nil =>
            rw [(isChain_nil_iff ..).mp hftail]
            exact hfh_null
          | cons g fs' =>
            have h2 := (isChain_cons_iff ..).mp hftail
            rw [h2.1]
            intro hc
            have := hfsflag g (List.mem_cons_self _ _)
            rw [← hc, hyflag] at this
            exact absurd this (by simp)
        have : getE (linkHeadVec (popHeadVec m.elem_vec (getE m.elem_vec f).next) f
            m.filled_head false) m.filled_head
            = { getE (popHeadVec m.elem_vec (getE m.elem_vec f).next) m.filled_head
                with prev := f } := by
          apply getE_linkHeadVec_h _ _ _ _ hfh_null _ hfh_ne_f
          rw [length_popHeadVec]
          rw [hy]; exact hylt
        rw [this, getE_popHeadVec_frame _ _ _ hfh_ne_eh]
        exact ⟨rfl, rfl⟩
      · intro i hi hine
        have h1 : i ≠ f := by
          intro hc
          have := hulflag i hi
          rw [hc, hflagf] at this
          exact absurd this (by simp)
        have h3 : i ≠ (getE m.elem_vec f).next := by
          cases fs with
          | nil =>
            rw [(isChain_nil_iff ..).mp hftail]
            exact Nat.ne_of_lt (Nat.lt_trans
              (isChain_mem_lt _ _ _ _ huc i hi) hlen)
          | cons g fs' =>
            have h2 := (isChain_cons_iff ..).mp hftail
            rw [h2.1]
            intro hc
            have := hfsflag g (List.mem_cons_self _ _)
            rw [← hc, hulflag i hi] at this
            exact absurd this (by simp)
        rw [hframe i h1 hine h3]
        exact ⟨rfl, rfl⟩
      · intro i _ hi
        rw [hlenw]
        exact hi
    · -- flags of fs
      intro i hi
      have h1 : i ≠ f := by
        intro hc
        exact hfnotfs (hc ▸ hi)
      rw [isEmpty_linkHeadVec_ne _ _ _ _ _ h1, isEmpty_popHeadVec]
      exact hfsflag i hi
    · -- flags of f :: ul
      intro i hi
      rcases List.mem_cons.mp hi with h1 | h1
      · subst h1
        rw [hgetf]
      · rw [isEmpty_linkHeadVec_ne, isEmpty_popHeadVec]
        · exact hulflag i h1
        · intro hc
          have := hulflag i h1
          rw [hc, hflagf] at this
          exact absurd this (by simp)
    · -- permutation
      exact (List.perm_middle).trans hperm
    · -- empty count
      have hectot : (f :: fs).length + ul.length = m.elem_vec.length :=
        WF_length_sum _ _ _ hwf0
      have hlt : (f :: fs).length < U64 := by
        have h1 : m.elem_vec.length < U64 := Nat.lt_trans hlen NULL_lt_U64
        omega
      rw [hec, sub64_small ((f :: fs).length) 1 (by simp) hlt]
      simp
    · -- filled count
      rw [hfcnt]
      simp

theorem acquire_nil_spec (m : SlabManager) (ul : List Nat)
    (hwf : WF m [] ul) :
    (m.acquire).2 = m.elem_vec.length ∧
    (m.acquire).1.elem_vec.length = m.elem_vec.length + 1 ∧
    (m.acquire).1.filled_head = m.elem_vec.length ∧
    (getE (m.acquire).1.elem_vec m.elem_vec.length).is_empty = false ∧
    (m.acquire).1.empty_cnt = m.empty_cnt ∧
    (m.elem_vec.length + 1 < NULL_INDEX →
      WF (m.acquire).1 [] (m.elem_vec.length :: ul)) := by
  have hwf0 := hwf
  obtain ⟨hpos, hlen, hfc, huc, _, huf, hperm, hec, hfcnt⟩ := hwf
  have hndall : ([] ++ ul).Nodup := WF_nodup _ _ _ hwf0
  have hndu : ul.Nodup := by simpa using hndall
  rw [isChain_nil_iff] at hfc
  have hacq := acquire_app_eq m hfc
  rw [hacq]
  have hul_lt : ∀ i ∈ ul, i < m.elem_vec.length :=
    fun i hi => isChain_mem_lt _ _ _ _ huc i hi
  have hul_ne_rv : ∀ i ∈ ul, i ≠ m.elem_vec.length :=
    fun i hi => Nat.ne_of_lt (hul_lt i hi)
  have hv0len : (m.elem_vec ++ [Elem.def0]).length = m.elem_vec.length + 1 := by
    simp
  have hlenw : (linkHeadVec (m.elem_vec ++ [Elem.def0]) m.elem_vec.length
      m.filled_head false).length = m.elem_vec.length + 1 := by
    rw [length_linkHeadVec, hv0len]
  have hrvlt : m.elem_vec.length < (m.elem_vec ++ [Elem.def0]).length := by
    rw [hv0len]; omega
  have hgetrv : getE (linkHeadVec (m.elem_vec ++ [Elem.def0]) m.elem_vec.length
      m.filled_head false) m.elem_vec.length = ⟨false, NULL_INDEX, m.filled_head⟩ :=
    getE_linkHeadVec_x _ _ _ _ hrvlt
  have hfh_ne_rv : m.filled_head ≠ m.elem_vec.length := by
    cases ul with
    | nil =>
      rw [(isChain_nil_iff ..).mp huc]
      intro hc
      have := hlen
      rw [← hc] at this
      exact absurd this (by simp [NULL_INDEX])
    | cons y ul' =>
      have h1 := (isChain_cons_iff ..).mp huc
      rw [h1.1]
      exact hul_ne_rv y (List.mem_cons_self _ _)
  have hframe : ∀ i, i < m.elem_vec.length → i ≠ m.filled_head →
      getE (linkHeadVec (m.elem_vec ++ [Elem.def0]) m.elem_vec.length
        m.filled_head false) i = getE m.elem_vec i := by
    intro i h1 h2
    rw [getE_linkHeadVec_frame _ _ _ _ _ (Nat.ne_of_lt h1) h2,
      getE_append_left _ _ _ h1]
  refine ⟨rfl, ?_, rfl, ?_, rfl, ?_⟩
  · simp only
    exact hlenw
  · simp only
    rw [hgetrv]
  · intro hsz
    unfold WF
    simp only
    rw [hlenw]
    refine ⟨by omega, hsz, ?_, ?_, by simp, ?_, ?_, ?_, ?_⟩
    · rw [isChain_nil_iff]
      exact hfc
    · have hch2 : isChain (m.elem_vec ++ [Elem.def0]) NULL_INDEX
          m.filled_head ul = true := by
        apply isChain_mono m.elem_vec _ ul _ _ huc
        · intro i hi
          rw [getE_append_left _ _ _ (hul_lt i hi)]
          exact ⟨rfl, rfl⟩
        · intro i _ h1
          rw [hv0len]; omega
      apply isChain_push (m.elem_vec ++ [Elem.def0]) _ m.filled_head
        m.elem_vec.length ul hch2 hndu
      · rw [hlenw]; omega
      · rw [hgetrv]
      · rw [hgetrv]
      · intro hne
        obtain ⟨y, ul', rfl⟩ := List.exists_cons_of_ne_nil hne
        have h1 := (isChain_cons_iff ..).mp huc
        have hylt : m.filled_head < m.elem_vec.length := by
          rw [h1.1]; exact hul_lt y (List.mem_cons_self _ _)
        have hfh_null : m.filled_head ≠ NULL_INDEX :=
          Nat.ne_of_lt (Nat.lt_trans hylt hlen)
        have : getE (linkHeadVec (m.elem_vec ++ [Elem.def0]) m.elem_vec.length
            m.filled_head false) m.filled_head
            = { getE (m.elem_vec ++ [Elem.def0]) m.filled_head
                with prev := m.elem_vec.length } := by
          apply getE_linkHeadVec_h _ _ _ _ hfh_null _ hfh_ne_rv
          rw [hv0len]; omega
        rw [this, getE_append_left _ _ _ hylt]
        exact ⟨rfl, rfl⟩
      · intro i hi hine
        rw [getE_linkHeadVec_frame _ _ _ _ _ (hul_ne_rv i hi) hine,
          getE_append_left _ _ _ (hul_lt i hi)]
        exact ⟨rfl, rfl⟩
      · intro i hi _
        rw [hlenw]
        exact Nat.lt_succ_of_lt (hul_lt i hi)
    · intro i hi
      rcases List.mem_cons.mp hi with h1 | h1
      · subst h1
        rw [hgetrv]
      · rw [isEmpty_linkHeadVec_ne _ _ _ _ _ (hul_ne_rv i h1)]
        have : getE (m.elem_vec ++ [Elem.def0]) i = getE m.elem_vec i :=
          getE_append_left _ _ _ (hul_lt i h1)
        rw [this]
        exact huf i h1
    · rw [List.nil_append]
      have h1 : ul.Perm (List.range m.elem_vec.length) := by simpa using hperm
      have h2 : (m.elem_vec.length :: ul).Perm
          (m.elem_vec.length :: List.range m.elem_vec.length) := h1.cons _
      have h3 : (m.elem_vec.length :: List.range m.elem_vec.length).Perm
          (List.range m.elem_vec.length ++ [m.elem_vec.length]) :=
        (List.perm_append_singleton _ _).symm
      have h4 := h2.trans h3
      rw [← List.range_succ] at h4
      exact h4
    · exact hec
    · rw [hfcnt]
      simp

theorem give_back_spec (m : SlabManager) (fl u1 u2 : List Nat) (ind : Nat)
    (hwf : WF m fl (u1 ++ ind :: u2)) :
    (m.give_back ind).2 = none ∧
    (m.give_back ind).1.empty_head = ind ∧
    (m.give_back ind).1.elem_vec.length = m.elem_vec.length ∧
    (getE (m.give_back ind).1.elem_vec ind).is_empty = true ∧
    (m.give_back ind).1.empty_cnt = m.empty_cnt + 1 ∧
    (m.give_back ind).1.filled_cnt = m.filled_cnt - 1 ∧
    WF (m.give_back ind).1 (ind :: fl) (u1 ++ u2) := by
  have hwf0 := hwf
  obtain ⟨hpos, hlen, hfc, huc, hff, huf, hperm, hec, hfcnt⟩ := hwf
  have hndall : (fl ++ (u1 ++ ind :: u2)).Nodup := WF_nodup _ _ _ hwf0
  have hndf : fl.Nodup := (List.nodup_append.mp hndall).1
  have hndu : (u1 ++ ind :: u2).Nodup := (List.nodup_append.mp hndall).2.1
  have hindmem : ind ∈ u1 ++ ind :: u2 :=
    List.mem_append_right _ (List.mem_cons_self _ _)
  have hindlt : ind < m.elem_vec.length := isChain_mem_lt _ _ _ _ huc ind hindmem
  have hindflag : (getE m.elem_vec ind).is_empty = false := huf ind hindmem
  have hind_notin : ind ∉ u1 ++ u2 := by
    intro hc
    rcases List.mem_append.mp hc with h | h
    · rcases List.nodup_append.mp hndu with ⟨_, _, hdisj⟩
      exact hdisj h (List.mem_cons_self _ _)
    · rcases List.nodup_append.mp hndu with ⟨_, hnd2, _⟩
      exact (List.nodup_cons.mp hnd2).1 h
  have hul_lt : ∀ i ∈ u1 ++ ind :: u2, i < m.elem_vec.length :=
    fun i hi => isChain_mem_lt _ _ _ _ huc i hi
  have hfl_lt : ∀ i ∈ fl, i < m.elem_vec.length :=
    fun i hi => isChain_mem_lt _ _ _ _ hfc i hi
  have hflag_ne : ∀ i ∈ fl, ∀ j ∈ u1 ++ ind :: u2, i ≠ j := by
    intro i hi j hj hc
    have h1 := hff i hi
    have h2 := huf j hj
    rw [hc, h2] at h1
    exact absurd h1 (by simp)
  have hgb := give_back_ok_eq m ind hindlt hindflag
  rw [hgb]
  -- the next field of ind points into u2 (or is NULL)
  have hnx_cases := isChain_next_mid m.elem_vec ind u2 u1 NULL_INDEX m.filled_head huc
  have hp_cases := isChain_prev_mid m.elem_vec ind u2 u1 NULL_INDEX m.filled_head huc
  have hnx_notfl : ∀ i ∈ fl, i ≠ (getE m.elem_vec ind).next := by
    intro i hi
    cases u2 with
    | nil =>
      rw [hnx_cases.1 rfl]
      exact Nat.ne_of_lt (Nat.lt_trans (hfl_lt i hi) hlen)
    | cons y u2' =>
      rw [hnx_cases.2 y u2' rfl]
      exact hflag_ne i hi y
        (List.mem_append_right _ (List.mem_cons_of_mem _ (List.mem_cons_self _ _)))
  have hp_notfl : ∀ i ∈ fl, i ≠ (getE m.elem_vec ind).prev := by
    intro i hi
    cases hu1 : u1 with
    | nil =>
      rw [hp_cases.1 hu1]
      exact Nat.ne_of_lt (Nat.lt_trans (hfl_lt i hi) hlen)
    | cons a u1' =>
      have hmem := hp_cases.2 (by rw [hu1]; simp)
      intro hc
      exact hflag_ne i hi (getE m.elem_vec ind).prev
        (List.mem_append_left _ hmem) hc
  have hulen : (unlinkVec m.elem_vec ind).length = m.elem_vec.length :=
    length_unlinkVec _ _
  have hwlen : (linkHeadVec (unlinkVec m.elem_vec ind) ind m.empty_head true).length
      = m.elem_vec.length := by
    rw [length_linkHeadVec, hulen]
  have hgetind : getE (linkHeadVec (unlinkVec m.elem_vec ind) ind m.empty_head true) ind
      = ⟨true, NULL_INDEX, m.empty_head⟩ := by
    apply getE_linkHeadVec_x
    rw [hulen]
    exact hindlt
  have heh_cases : m.empty_head = NULL_INDEX ∨
      (fl ≠ [] ∧ m.empty_head ∈ fl ∧ m.empty_head < m.elem_vec.length) := by
    cases fl with
    | nil => left; exact (isChain_nil_iff ..).mp hfc
    | cons g fl' =>
      right
      have h1 := (isChain_cons_iff ..).mp hfc
      rw [h1.1]
      exact ⟨by simp, List.mem_cons_self _ _, h1.2.1⟩
  have heh_ne_ind : m.empty_head ≠ ind := by
    rcases heh_cases with h | ⟨_, hmem, _⟩
    · rw [h]
      exact fun hc => Nat.ne_of_lt (Nat.lt_trans hindlt hlen) hc.symm
    · exact hflag_ne _ hmem ind hindmem
  have hused_frame : ∀ i ∈ u1 ++ u2,
      getE (linkHeadVec (unlinkVec m.elem_vec ind) ind m.empty_head true) i
        = getE (unlinkVec m.elem_vec ind) i := by
    intro i hi
    apply getE_linkHeadVec_frame
    · intro hc
      exact hind_notin (hc ▸ hi)
    · intro hc
      rcases heh_cases with h | ⟨_, hmem, _⟩
      · rw [h] at hc
        have : i < m.elem_vec.length := by
          rcases List.mem_append.mp hi with h2 | h2
          · exact hul_lt i (List.mem_append_left _ h2)
          · exact hul_lt i (List.mem_append_right _ (List.mem_cons_of_mem _ h2))
        rw [hc] at this
        omega
      · have himem : i ∈ u1 ++ ind :: u2 := by
          rcases List.mem_append.mp hi with h2 | h2
          · exact List.mem_append_left _ h2
          · exact List.mem_append_right _ (List.mem_cons_of_mem _ h2)
        exact hflag_ne _ hmem i himem hc.symm
  refine ⟨rfl, rfl, ?_, ?_, rfl, ?_, ?_⟩
  · simp only
    exact hwlen
  · simp only
    rw [hgetind]
  · simp only
    have hge : 1 ≤ m.filled_cnt := by
      rw [hfcnt, List.length_append, List.length_cons]
      omega
    have hlt2 : m.filled_cnt < U64 := by
      have h1 : (u1 ++ ind :: u2).length ≤ m.elem_vec.length := by
        have := WF_length_sum _ _ _ hwf0
        omega
      rw [hfcnt]
      exact Nat.lt_of_le_of_lt h1 (Nat.lt_trans hlen NULL_lt_U64)
    exact sub64_small _ 1 hge hlt2
  · unfold WF
    simp only
    rw [hwlen]
    refine ⟨hpos, hlen, ?_, ?_, ?_, ?_, ?_, ?_, ?_⟩
    · -- new free chain: ind :: fl
      have hch2 : isChain (unlinkVec m.elem_vec ind) NULL_INDEX
          m.empty_head fl = true := by
        apply isChain_mono m.elem_vec _ fl _ _ hfc
        · intro i hi
          constructor
          · exact prev_unlinkVec_frame _ _ _ (hnx_notfl i hi)
          · exact next_unlinkVec_frame _ _ _ (hp_notfl i hi)
        · intro i _ h1
          rw [hulen]
          exact h1
      apply isChain_push (unlinkVec m.elem_vec ind) _ m.empty_head ind fl hch2 hndf
      · rw [hwlen]
        exact hindlt
      · rw [hgetind]
      · rw [hgetind]
      · intro hne
        rcases heh_cases with h | ⟨_, hmem, hehlt⟩
        · rcases List.exists_cons_of_ne_nil hne with ⟨g, fl', hfl⟩
          rw [hfl, isChain_cons_iff] at hfc
          obtain ⟨hg, hglt, _, _⟩ := hfc
          rw [h] at hg
          exact absurd hg.symm (Nat.ne_of_lt (Nat.lt_trans hglt hlen))
        · have heh_null : m.empty_head ≠ NULL_INDEX :=
            Nat.ne_of_lt (Nat.lt_trans hehlt hlen)
          have : getE (linkHeadVec (unlinkVec m.elem_vec ind) ind m.empty_head true)
              m.empty_head
              = { getE (unlinkVec m.elem_vec ind) m.empty_head with prev := ind } := by
            apply getE_linkHeadVec_h _ _ _ _ heh_null _ heh_ne_ind
            rw [hulen]
            exact hehlt
          rw [this]
          exact ⟨rfl, rfl⟩
      · intro i hi hine
        rw [getE_linkHeadVec_frame _ _ _ _ _ (hflag_ne i hi ind hindmem) hine]
        exact ⟨rfl, rfl⟩
      · intro i hi h1
        rw [hwlen]
        rw [hulen] at h1
        exact h1
    · -- new used chain: u1 ++ u2
      have hunl := isChain_unlink m.elem_vec ind u2 u1 NULL_INDEX m.filled_head huc
        hndu (by
          intro hc
          exact absurd (hul_lt _ hc) (fun h2 => Nat.lt_irrefl _ (Nat.lt_trans h2 hlen)))
        (Nat.le_of_lt hlen)
      -- align the two head expressions
      have hheads : (if (getE m.elem_vec ind).prev ≠ NULL_INDEX then m.filled_head
          else (getE m.elem_vec ind).next)
          = (if u1 = [] then (getE m.elem_vec ind).next else m.filled_head) := by
        by_cases hu1 : u1 = []
        · have hpn : (getE m.elem_vec ind).prev = NULL_INDEX := hp_cases.1 hu1
          rw [if_neg (fun hcc => hcc hpn), if_pos hu1]
        · have hmem := hp_cases.2 hu1
          have hpne : (getE m.elem_vec ind).prev ≠ NULL_INDEX :=
            Nat.ne_of_lt (Nat.lt_trans (hul_lt _ (List.mem_append_left _ hmem)) hlen)
          rw [if_pos hpne, if_neg hu1]
      rw [hheads]
      apply isChain_mono (unlinkVec m.elem_vec ind) _ (u1 ++ u2) _ _ hunl
      · intro i hi
        rw [hused_frame i hi]
        exact ⟨rfl, rfl⟩
      · intro i _ h1
        rw [hwlen]
        rw [hulen] at h1
        exact h1
    · -- flags of ind :: fl
      intro i hi
      rcases List.mem_cons.mp hi with h1 | h1
      · subst h1
        rw [hgetind]
      · rw [isEmpty_linkHeadVec_ne _ _ _ _ _ (hflag_ne i h1 ind hindmem),
          isEmpty_unlinkVec]
        exact hff i h1
    · -- flags of u1 ++ u2
      intro i hi
      have h1 : i ≠ ind := fun hc => hind_notin (hc ▸ hi)
      rw [isEmpty_linkHeadVec_ne _ _ _ _ _ h1]
      have h2 : (getE (unlinkVec m.elem_vec ind) i).is_empty
          = (getE m.elem_vec i).is_empty := isEmpty_unlinkVec _ _ _
      rw [h2]
      rcases List.mem_append.mp hi with h3 | h3
      · exact huf i (List.mem_append_left _ h3)
      · exact huf i (List.mem_append_right _ (List.mem_cons_of_mem _ h3))
    · -- permutation
      have e1 : (ind :: fl) ++ (u1 ++ u2) = ind :: (fl ++ (u1 ++ u2)) := by simp
      rw [e1]
      exact List.Perm.trans List.perm_middle.symm
        (List.Perm.trans (List.Perm.append_left fl List.perm_middle.symm) hperm)
    · rw [hec]
      simp
    · have hge : 1 ≤ m.filled_cnt := by
        rw [hfcnt, List.length_append, List.length_cons]
        omega
      have hlt2 : m.filled_cnt < U64 := by
        have h1 : (u1 ++ ind :: u2).length ≤ m.elem_vec.length := by
          have := WF_length_sum _ _ _ hwf0
          omega
        rw [hfcnt]
        exact Nat.lt_of_le_of_lt h1 (Nat.lt_trans hlen NULL_lt_U64)
      rw [sub64_small _ 1 hge hlt2, hfcnt, List.length_append, List.length_cons,
        List.length_append]
      omega

theorem getE_map_range (f : Nat → Elem) (n : Nat) :
    ∀ i, getE ((List.range n).map f) i = if i < n then f i else Elem.def0 := by
  induction n with
  | zero =>
    intro i
    rw [List.range_zero]
    rw [if_neg (Nat.not_lt_zero i)]
    rfl
  | succ k ih =>
    intro i
    rw [List.range_succ, List.map_append]
    by_cases hik : i < k
    · rw [getE_append_left _ _ _ (by simpa using hik), ih, if_pos hik,
        if_pos (Nat.lt_succ_of_lt hik)]
    · by_cases hik2 : i = k
      · subst hik2
        have hl : ((List.range i).map f).length = i := by simp
        have he := getE_append_end ((List.range i).map f) (f i)
        rw [hl] at he
        simp only [List.map_cons, List.map_nil]
        rw [he, if_pos (Nat.lt_succ_self i)]
      · rw [getE_oob _ _ (by simp; omega), if_neg (by omega)]

theorem initCells_eq (v : List Elem) (n : Nat) (hn : n = v.length) :
    initCells v n = (List.range n).map (freeChainElem n) := by
  by_cases h1 : 1 < n
  · rw [initCells, if_pos h1, ← hn]
    apply List.map_congr_left
    intro i hi
    rw [if_pos (List.mem_range.mp hi)]
  · rw [initCells, if_neg h1]
    have h2 : n = 0 ∨ n = 1 := by omega
    rcases h2 with h2 | h2
    · subst h2
      have h3 : v = [] := List.eq_nil_of_length_eq_zero hn.symm
      subst h3
      rfl
    · subst h2
      cases v with
      | nil => simp at hn
      | cons e v' =>
        have h4 : v'.length = 0 := by
          rw [List.length_cons] at hn
          omega
        have h5 : v' = [] := List.eq_nil_of_length_eq_zero h4
        subst h5
        rfl

theorem isChain_freshChain (n : Nat) :
    ∀ (k a : Nat), a + k = n →
      isChain ((List.range n).map (freeChainElem n))
        (if a = 0 then NULL_INDEX else a - 1)
        (if k = 0 then NULL_INDEX else a) (List.range' a k) = true := by
  intro k
  induction k with
  | zero =>
    intro a _
    have hr : List.range' a 0 = [] := rfl
    rw [if_pos rfl, hr, isChain_nil_iff]
  | succ k2 ih =>
    intro a hak
    have hk0 : ¬(k2 + 1 = 0) := by omega
    rw [if_neg hk0]
    have hr : List.range' a (k2 + 1) = a :: List.range' (a + 1) k2 :=
      List.range'_succ a k2 1
    rw [hr, isChain_cons_iff]
    have halt : a < n := by omega
    have hget : getE ((List.range n).map (freeChainElem n)) a = freeChainElem n a := by
      rw [getE_map_range, if_pos halt]
    refine ⟨rfl, by simpa using halt, ?_, ?_⟩
    · rw [hget]
      simp only [freeChainElem]
    · rw [hget]
      have hih := ih (a + 1) (by omega)
      have ha1 : ¬(a + 1 = 0) := by omega
      rw [if_neg ha1] at hih
      have hnext : (freeChainElem n a).next = (if k2 = 0 then NULL_INDEX else a + 1) := by
        simp only [freeChainElem]
        by_cases hk : k2 = 0
        · rw [if_pos (by omega : a = n - 1), if_pos hk]
        · rw [if_neg (by omega : ¬(a = n - 1)), if_neg hk]
      rw [hnext]
      have ha2 : a + 1 - 1 = a := by omega
      rw [ha2] at hih
      exact hih

theorem initialize_spec (m : SlabManager) (n : Nat)
    (hn : n = m.elem_vec.length) (hp : 1 ≤ n) (hlt : n < NULL_INDEX) :
    WF ( SlabManager.initialize m n) (List.range n) [] ∧
    ( SlabManager.initialize m n).elem_vec.length = n ∧
    ( SlabManager.initialize m n).empty_head = 0 ∧
    ( SlabManager.initialize m n).empty_cnt = n ∧
    ( SlabManager.initialize m n).filled_cnt = 0 := by
  have hcells : initCells m.elem_vec n = (List.range n).map (freeChainElem n) :=
    initCells_eq m.elem_vec n hn
  have hlen2 : (initCells m.elem_vec n).length = n := by
    rw [hcells]
    simp
  refine ⟨?_, hlen2, rfl, rfl, rfl⟩
  unfold WF SlabManager.initialize
  simp only
  rw [hlen2]
  refine ⟨hp, hlt, ?_, ?_, ?_, by simp, ?_, by simp, rfl⟩
  · rw [hcells]
    have h1 := isChain_freshChain n n 0 (by omega)
    rw [if_pos rfl, if_neg (by omega)] at h1
    rw [← List.range_eq_range'] at h1
    exact h1
  · rw [isChain_nil_iff]
  · intro i hi
    rw [hcells, getE_map_range, if_pos (List.mem_range.mp hi)]
    rfl
  · rw [List.append_nil]

theorem construct_spec (n : Nat)
    (h : (if 0 < n then n else 1) < NULL_INDEX) :
    WF (SlabManager.construct n) (List.range (if 0 < n then n else 1)) [] ∧
    (SlabManager.construct n).elem_vec.length = (if 0 < n then n else 1) ∧
    (SlabManager.construct n).empty_cnt = (if 0 < n then n else 1) ∧
    (SlabManager.construct n).filled_cnt = 0 := by
  have hs := initialize_spec
    { empty_head := 0, filled_head := NULL_INDEX, empty_cnt := 0, filled_cnt := 0
    , elem_vec := List.replicate (if 0 < n then n else 1) Elem.def0 }
    (if 0 < n then n else 1) (by simp) (by split_ifs <;> omega) h
  exact ⟨hs.1, hs.2.1, hs.2.2.2.1, hs.2.2.2.2⟩

theorem clear_spec (m : SlabManager) (fl ul : List Nat) (hwf : WF m fl ul) :
    WF m.clear (List.range m.elem_vec.length) [] ∧
    m.clear.elem_vec.length = m.elem_vec.length ∧
    m.clear.empty_cnt = m.elem_vec.length ∧
    m.clear.filled_cnt = 0 := by
  obtain ⟨hpos, hlen, _, _, _, _, _, _, _⟩ := hwf
  have hs := initialize_spec m m.elem_vec.length rfl hpos hlen
  exact ⟨hs.1, hs.2.1, hs.2.2.2.1, hs.2.2.2.2⟩

theorem getE_append_right (v w : List Elem) (j : Nat) :
    getE (v ++ w) (v.length + j) = getE w j := by
  induction v with
  | nil => simp [getE]
  | cons e v' ih => simpa [Nat.succ_add] using ih

theorem getE_replicate (n : Nat) (e : Elem) :
    ∀ j, j < n → getE (List.replicate n e) j = e := by
  induction n with
  | zero => intro j h; simp at h
  | succ k ih =>
    intro j h
    cases j with
    | zero => rfl
    | succ j2 => exact ih j2 (Nat.lt_of_succ_lt_succ h)

theorem scanLoop_no_used (v : List Elem) :
    ∀ (i c : Nat), (∀ j, j ≤ i → (getE v j).is_empty = true) →
      scanLoop i v c = (NULL_INDEX, c + i + 1) := by
  intro i
  induction i with
  | zero =>
    intro c h
    simp only [scanLoop]
    rw [h 0 (Nat.le_refl 0)]
    simp
  | succ k ih =>
    intro c h
    simp only [scanLoop]
    have hcond : ¬((getE v (k + 1)).is_empty = false) := by
      rw [h (k + 1) (Nat.le_refl _)]
      simp
    rw [if_neg hcond, ih (c + 1) (fun j hj => h j (Nat.le_succ_of_le hj))]
    have he : c + 1 + k + 1 = c + (k + 1) + 1 := by omega
    rw [he]

theorem scanLoop_found (v : List Elem) (p : Nat)
    (hp : (getE v p).is_empty = false) :
    ∀ (i c : Nat), p ≤ i → (∀ j, p < j → j ≤ i → (getE v j).is_empty = true) →
      scanLoop i v c = (p, c + (i - p)) := by
  intro i
  induction i with
  | zero =>
    intro c hpi _
    have hp0 : p = 0 := by omega
    subst hp0
    simp only [scanLoop]
    rw [if_pos hp]
    simp
  | succ k ih =>
    intro c hpi h
    by_cases hpk : p = k + 1
    · subst hpk
      simp only [scanLoop]
      rw [if_pos hp]
      simp
    · have hplt : p ≤ k := by omega
      simp only [scanLoop]
      have hcond : ¬((getE v (k + 1)).is_empty = false) := by
        rw [h (k + 1) (by omega) (Nat.le_refl _)]
        simp
      rw [if_neg hcond, ih (c + 1) hplt (fun j h1 h2 => h j h1 (by omega))]
      have he : c + 1 + (k - p) = c + (k + 1 - p) := by omega
      rw [he]

theorem upLoop_spec :
    ∀ (k : Nat) (v : List Elem) (h : Nat) (S : List Nat) (i : Nat),
      isChain v NULL_INDEX h S = true →
      S.Nodup →
      (∀ j ∈ S, j < i) →
      i + k ≤ v.length →
      v.length ≤ NULL_INDEX →
      (upLoop k v h i).1.length = v.length ∧
      isChain (upLoop k v h i).1 NULL_INDEX (upLoop k v h i).2
        ((List.range' i k).reverse ++ S) = true ∧
      (∀ j, (getE (upLoop k v h i).1 j).is_empty = (getE v j).is_empty) ∧
      (∀ j, j < i → j ∉ S → getE (upLoop k v h i).1 j = getE v j) := by
  intro k
  induction k with
  | zero =>
    intro v h S i hch _ _ _ _
    exact ⟨rfl, hch, fun j => rfl, fun j _ _ => rfl⟩
  | succ k2 ih =>
    intro v h S i hch hnd hS hlen hnul
    simp only [upLoop]
    generalize hw : (if h ≠ NULL_INDEX
        then setPrev (setNext (setPrev v i NULL_INDEX) i h) h i
        else setNext (setPrev v i NULL_INDEX) i h) = w
    have hilen : i < v.length := by omega
    have hhS : h ≠ NULL_INDEX → h ∈ S := by
      intro hne
      cases S with
      | nil => exact absurd ((isChain_nil_iff ..).mp hch) hne
      | cons a S' =>
        rw [((isChain_cons_iff ..).mp hch).1]
        exact List.mem_cons_self _ _
    have hine : h ≠ NULL_INDEX → h ≠ i := by
      intro hne
      exact Nat.ne_of_lt (hS h (hhS hne))
    have hwlen : w.length = v.length := by
      rw [← hw]
      split_ifs <;> simp [length_setPrev, length_setNext]
    have hgetwi : getE w i = ⟨(getE v i).is_empty, NULL_INDEX, h⟩ := by
      rw [← hw]
      have h1 : i < (setPrev v i NULL_INDEX).length := by rw [length_setPrev]; exact hilen
      split_ifs with hcnd
      · rw [getE_setPrev_ne _ _ _ _ (Ne.symm (hine hcnd)),
          getE_setNext_self _ _ _ h1, getE_setPrev_self _ _ _ hilen]
      · rw [getE_setNext_self _ _ _ h1, getE_setPrev_self _ _ _ hilen]
    have hgetwh : h ≠ NULL_INDEX → getE w h = { getE v h with prev := i } := by
      intro hne
      rw [← hw, if_pos hne]
      have h2 : h < (setNext (setPrev v i NULL_INDEX) i h).length := by
        rw [length_setNext, length_setPrev]
        exact isChain_mem_lt _ _ _ _ hch h (hhS hne)
      rw [getE_setPrev_self _ _ _ h2,
        getE_setNext_ne _ _ _ _ (hine hne), getE_setPrev_ne _ _ _ _ (hine hne)]
    have hwframe : ∀ j, j ≠ i → j ≠ h → getE w j = getE v j := by
      intro j h1 h2
      rw [← hw]
      split_ifs
      · rw [getE_setPrev_ne _ _ _ _ h2, getE_setNext_ne _ _ _ _ h1,
          getE_setPrev_ne _ _ _ _ h1]
      · rw [getE_setNext_ne _ _ _ _ h1, getE_setPrev_ne _ _ _ _ h1]
    have hwflag : ∀ j, (getE w j).is_empty = (getE v j).is_empty := by
      intro j
      rw [← hw]
      split_ifs <;> simp [isEmpty_setPrev, isEmpty_setNext]
    have hch2 : isChain w NULL_INDEX i (i :: S) = true := by
      apply isChain_push v w h i S hch hnd
      · rw [hwlen]; exact hilen
      · rw [hgetwi]
      · rw [hgetwi]
      · intro hne2
        have hne : h ≠ NULL_INDEX := by
          cases S with
          | nil => exact absurd rfl hne2
          | cons a S' =>
            have h1 : h = a := ((isChain_cons_iff ..).mp hch).1
            have h2 : a < i := hS a (List.mem_cons_self _ _)
            have h3 : a < NULL_INDEX := by omega
            rw [h1]
            exact Nat.ne_of_lt h3
        rw [hgetwh hne]
        exact ⟨rfl, rfl⟩
      · intro j hj hjh
        rw [hwframe j (Nat.ne_of_lt (hS j hj)) hjh]
        exact ⟨rfl, rfl⟩
      · intro j hj h1
        rw [hwlen]
        exact h1
    have hnd2 : (i :: S).Nodup := by
      rw [List.nodup_cons]
      exact ⟨fun hc => Nat.lt_irrefl i (hS i hc), hnd⟩
    have hS2 : ∀ j ∈ i :: S, j < i + 1 := by
      intro j hj
      rcases List.mem_cons.mp hj with h1 | h1
      · omega
      · exact Nat.lt_succ_of_lt (hS j h1)
    have hih := ih w i (i :: S) (i + 1) hch2 hnd2 hS2
      (by rw [hwlen]; omega) (by rw [hwlen]; exact hnul)
    obtain ⟨ih1, ih2, ih3, ih4⟩ := hih
    have hrange : (List.range' (i + 1) k2).reverse ++ (i :: S)
        = (List.range' i (k2 + 1)).reverse ++ S := by
      rw [List.range'_succ i k2 1, List.reverse_cons, List.append_assoc]
      rfl
    refine ⟨by rw [ih1, hwlen], by rw [← hrange]; exact ih2, ?_, ?_⟩
    · intro j
      rw [ih3 j, hwflag j]
    · intro j h1 h2
      rw [ih4 j (by omega) (by
        intro hc
        rcases List.mem_cons.mp hc with h3 | h3
        · omega
        · exact h2 h3)]
      exact hwframe j (by omega) (by
        intro hc
        by_cases hne : h = NULL_INDEX
        · rw [hc, hne] at h1
          omega
        · exact h2 (hc ▸ hhS hne))

theorem resize_up_spec (m : SlabManager) (fl ul : List Nat) (newsize : Nat)
    (hwf : WF m fl ul) (hgt : m.elem_vec.length < newsize)
    (hns : newsize < NULL_INDEX) :
    (m.resize newsize).elem_vec.length = newsize ∧
    (m.resize newsize).empty_cnt = m.empty_cnt + (newsize - m.elem_vec.length) ∧
    (m.resize newsize).filled_cnt = m.filled_cnt ∧
    (m.resize newsize).filled_head = m.filled_head ∧
    (∀ i, i < m.elem_vec.length → (getE m.elem_vec i).is_empty = false →
      getE (m.resize newsize).elem_vec i = getE m.elem_vec i) ∧
    WF (m.resize newsize)
      ((List.range' m.elem_vec.length (newsize - m.elem_vec.length)).reverse ++ fl)
      ul := by
  have hwf0 := hwf
  obtain ⟨hpos, hlen, hfc, huc, hff, huf, hperm, hec, hfcnt⟩ := hwf
  have hndall := WF_nodup _ _ _ hwf0
  have hndf : fl.Nodup := (List.nodup_append.mp hndall).1
  have hndu : ul.Nodup := (List.nodup_append.mp hndall).2.1
  have hfl_lt : ∀ i ∈ fl, i < m.elem_vec.length :=
    fun i hi => isChain_mem_lt _ _ _ _ hfc i hi
  have hul_lt : ∀ i ∈ ul, i < m.elem_vec.length :=
    fun i hi => isChain_mem_lt _ _ _ _ huc i hi
  have hdisj : ∀ i ∈ fl, ∀ j ∈ ul, i ≠ j := by
    intro i hi j hj hc
    have h1 := hff i hi
    rw [hc, huf j hj] at h1
    exact absurd h1 (by simp)
  have hss : ¬(m.elem_vec.length = newsize) := by omega
  have hv0 : resizeVec m.elem_vec newsize
      = m.elem_vec ++ List.replicate (newsize - m.elem_vec.length) Elem.def0 := by
    rw [resizeVec, if_neg (by omega)]
  have hv0len : (resizeVec m.elem_vec newsize).length = newsize := by
    rw [hv0]
    simp
    omega
  have hv0get : ∀ i, i < m.elem_vec.length →
      getE (resizeVec m.elem_vec newsize) i = getE m.elem_vec i := by
    intro i hi
    rw [hv0, getE_append_left _ _ _ hi]
  have hv0new : ∀ i, m.elem_vec.length ≤ i → i < newsize →
      getE (resizeVec m.elem_vec newsize) i = Elem.def0 := by
    intro i h1 h2
    rw [hv0]
    have h3 : i = m.elem_vec.length + (i - m.elem_vec.length) := by omega
    rw [h3, getE_append_right]
    exact getE_replicate _ _ _ (by omega)
  have hch0 : isChain (resizeVec m.elem_vec newsize) NULL_INDEX
      m.empty_head fl = true := by
    apply isChain_mono m.elem_vec _ fl _ _ hfc
    · intro i hi
      rw [hv0get i (hfl_lt i hi)]
      exact ⟨rfl, rfl⟩
    · intro i _ h1
      omega
  have hup := upLoop_spec (newsize - m.elem_vec.length) (resizeVec m.elem_vec newsize)
    m.empty_head fl m.elem_vec.length hch0 hndf hfl_lt
    (by omega) (by rw [hv0len]; omega)
  obtain ⟨hup1, hup2, hup3, hup4⟩ := hup
  have hres : m.resize newsize =
      { m with
        elem_vec := (upLoop (newsize - m.elem_vec.length)
          (resizeVec m.elem_vec newsize) m.empty_head m.elem_vec.length).1
        empty_head := (upLoop (newsize - m.elem_vec.length)
          (resizeVec m.elem_vec newsize) m.empty_head m.elem_vec.length).2
        empty_cnt := m.empty_cnt + (newsize - m.elem_vec.length) } := by
    rw [SlabManager.resize]
    simp only
    rw [if_neg hss, if_pos hgt]
  rw [hres]
  have hfrused : ∀ i, i < m.elem_vec.length → (getE m.elem_vec i).is_empty = false →
      getE (upLoop (newsize - m.elem_vec.length) (resizeVec m.elem_vec newsize)
        m.empty_head m.elem_vec.length).1 i = getE m.elem_vec i := by
    intro i h1 h2
    rw [hup4 i h1 (by
      intro hc
      rw [hff i hc] at h2
      exact absurd h2 (by simp))]
    exact hv0get i h1
  refine ⟨by rw [hup1, hv0len], rfl, rfl, rfl, hfrused, ?_⟩
  unfold WF
  simp only
  rw [hup1, hv0len]
  refine ⟨by omega, hns, hup2, ?_, ?_, ?_, ?_, ?_, ?_⟩
  · -- used chain preserved
    apply isChain_mono m.elem_vec _ ul _ _ huc
    · intro i hi
      rw [hup4 i (hul_lt i hi) (fun hc => hdisj i hc i hi rfl), hv0get i (hul_lt i hi)]
      exact ⟨rfl, rfl⟩
    · intro i _ h1
      rw [hup1, hv0len]
      omega
  · -- flags of the new free list
    intro i hi
    rw [hup3 i]
    rcases List.mem_append.mp hi with h1 | h1
    · have h2 := List.mem_range'_1.mp (List.mem_reverse.mp h1)
      rw [hv0new i h2.1 (by omega)]
      rfl
    · rw [hv0get i (hfl_lt i h1)]
      exact hff i h1
  · -- flags of the used list
    intro i hi
    rw [hup3 i, hv0get i (hul_lt i hi)]
    exact huf i hi
  · -- permutation
    have hlsum : fl.length + ul.length = m.elem_vec.length := WF_length_sum _ _ _ hwf0
    have hp1 : ((List.range' m.elem_vec.length (newsize - m.elem_vec.length)).reverse
        ++ fl ++ ul).Perm
        ((List.range' m.elem_vec.length (newsize - m.elem_vec.length)).reverse
          ++ (fl ++ ul)) := by
      rw [List.append_assoc]
    have hp2 : ((List.range' m.elem_vec.length (newsize - m.elem_vec.length)).reverse
        ++ (fl ++ ul)).Perm
        ((List.range' m.elem_vec.length (newsize - m.elem_vec.length)).reverse
          ++ List.range m.elem_vec.length) :=
      List.Perm.append_left _ hperm
    have hp3 : ((List.range' m.elem_vec.length (newsize - m.elem_vec.length)).reverse
        ++ List.range m.elem_vec.length).Perm
        (List.range' m.elem_vec.length (newsize - m.elem_vec.length)
          ++ List.range m.elem_vec.length) :=
      List.Perm.append_right _ (List.reverse_perm _)
    have hp4 : (List.range' m.elem_vec.length (newsize - m.elem_vec.length)
        ++ List.range m.elem_vec.length).Perm
        (List.range m.elem_vec.length
          ++ List.range' m.elem_vec.length (newsize - m.elem_vec.length)) :=
      List.perm_append_comm
    have hp5 : List.range m.elem_vec.length
        ++ List.range' m.elem_vec.length (newsize - m.elem_vec.length)
        = List.range newsize := by
      rw [List.range_eq_range', List.range_eq_range']
      have := List.range'_append 0 m.elem_vec.length (newsize - m.elem_vec.length) 1
      simp only [Nat.one_mul, Nat.zero_add] at this
      rw [this]
      have he : newsize - m.elem_vec.length + m.elem_vec.length = newsize := by omega
      rw [he]
    exact hp1.trans (hp2.trans (hp3.trans (hp4.trans (hp5 ▸ List.Perm.refl _))))
  · rw [hec]
    simp
    omega
  · exact hfcnt

theorem relinkStep_spec (v : List Elem) (h c i : Nat) (S : List Nat)
    (hch : isChain v NULL_INDEX h S = true)
    (hnd : S.Nodup)
    (hS : ∀ j ∈ S, i < j ∧ j < v.length)
    (hSf : ∀ j ∈ S, (getE v j).is_empty = true)
    (hilen : i < v.length)
    (hnul : v.length ≤ NULL_INDEX) :
    (relinkStep v h c i).1.length = v.length ∧
    isChain (relinkStep v h c i).1 NULL_INDEX (relinkStep v h c i).2.1
      ((if (getE v i).is_empty then [i] else []) ++ S) = true ∧
    (relinkStep v h c i).2.2 = c + (if (getE v i).is_empty then 1 else 0) ∧
    (∀ j, (getE (relinkStep v h c i).1 j).is_empty = (getE v j).is_empty) ∧
    (∀ j, (getE v j).is_empty = false → getE (relinkStep v h c i).1 j = getE v j) := by
  by_cases hflag : (getE v i).is_empty = true
  · rw [relinkStep, if_pos hflag]
    by_cases hh : h = NULL_INDEX
    · rw [if_pos hh]
      have hSnil : S = [] := by
        cases S with
        | nil => rfl
        | cons a S' =>
          have h1 := (isChain_cons_iff ..).mp hch
          have h2 := (hS a (List.mem_cons_self _ _)).2
          rw [hh] at h1
          omega
      subst hSnil
      have hgi : getE (setNext (setPrev v i NULL_INDEX) i NULL_INDEX) i
          = ⟨(getE v i).is_empty, NULL_INDEX, NULL_INDEX⟩ := by
        have h1 : i < (setPrev v i NULL_INDEX).length := by
          rw [length_setPrev]; exact hilen
        rw [getE_setNext_self _ _ _ h1, getE_setPrev_self _ _ _ hilen]
      have hfr : ∀ j, j ≠ i →
          getE (setNext (setPrev v i NULL_INDEX) i NULL_INDEX) j = getE v j := by
        intro j hj
        rw [getE_setNext_ne _ _ _ _ hj, getE_setPrev_ne _ _ _ _ hj]
      refine ⟨by simp [length_setNext, length_setPrev], ?_, by rw [hflag]; simp, ?_, ?_⟩
      · rw [hflag]
        simp only [if_pos trivial, List.append_nil]
        rw [isChain_cons_iff]
        refine ⟨rfl, by simp [length_setNext, length_setPrev, hilen], ?_, ?_⟩
        · rw [hgi]
        · rw [hgi]
          rw [isChain_nil_iff]
      · intro j
        by_cases hj : j = i
        · subst hj
          rw [hgi]
        · rw [hfr j hj]
      · intro j hjf
        apply hfr j
        intro hc2
        rw [hc2, hflag] at hjf
        exact absurd hjf (by simp)
    · rw [if_neg hh]
      have hScons : ∃ a S', S = a :: S' := by
        cases S with
        | nil => exact absurd ((isChain_nil_iff ..).mp hch) hh
        | cons a S' => exact ⟨a, S', rfl⟩
      obtain ⟨a, S', rfl⟩ := hScons
      have hha : h = a := ((isChain_cons_iff ..).mp hch).1
      subst hha
      have hia : i < h := (hS h (List.mem_cons_self _ _)).1
      have hai : h ≠ i := by omega
      have halen : h < v.length := (hS h (List.mem_cons_self _ _)).2
      have hgi : getE (setNext (setPrev (setPrev v h i) i NULL_INDEX) i h) i
          = ⟨(getE v i).is_empty, NULL_INDEX, h⟩ := by
        have h1 : i < (setPrev (setPrev v h i) i NULL_INDEX).length := by
          rw [length_setPrev, length_setPrev]; exact hilen
        have h2 : i < (setPrev v h i).length := by
          rw [length_setPrev]; exact hilen
        rw [getE_setNext_self _ _ _ h1, getE_setPrev_self _ _ _ h2,
          getE_setPrev_ne _ _ _ _ (by omega)]
      have hga : getE (setNext (setPrev (setPrev v h i) i NULL_INDEX) i h) h
          = { getE v h with prev := i } := by
        rw [getE_setNext_ne _ _ _ _ hai, getE_setPrev_ne _ _ _ _ hai,
          getE_setPrev_self _ _ _ halen]
      have hfr : ∀ j, j ≠ i → j ≠ h →
          getE (setNext (setPrev (setPrev v h i) i NULL_INDEX) i h) j = getE v j := by
        intro j hj1 hj2
        rw [getE_setNext_ne _ _ _ _ hj1, getE_setPrev_ne _ _ _ _ hj1,
          getE_setPrev_ne _ _ _ _ hj2]
      refine ⟨by simp [length_setNext, length_setPrev], ?_, by rw [hflag]; simp, ?_, ?_⟩
      · rw [hflag]
        simp only [if_pos trivial]
        rw [List.singleton_append]
        apply isChain_push v _ h i (h :: S') hch hnd
        · simp [length_setNext, length_setPrev, hilen]
        · rw [hgi]
        · rw [hgi]
        · intro _
          rw [hga]
          exact ⟨rfl, rfl⟩
        · intro j hj hjh
          rw [hfr j (by
            have := (hS j hj).1
            omega) hjh]
          exact ⟨rfl, rfl⟩
        · intro j _ hjl
          simpa [length_setNext, length_setPrev] using hjl
      · intro j
        by_cases hj : j = i
        · subst hj
          rw [hgi]
        · by_cases hj2 : j = h
          · subst hj2
            rw [hga]
          · rw [hfr j hj hj2]
      · intro j hjf
        apply hfr j
        · intro hc2
          rw [hc2, hflag] at hjf
          exact absurd hjf (by simp)
        · intro hc2
          rw [hc2, hSf h (List.mem_cons_self _ _)] at hjf
          exact absurd hjf (by simp)
  · have hflag2 : (getE v i).is_empty = false := by
      cases hfe : (getE v i).is_empty
      · rfl
      · exact absurd hfe hflag
    rw [relinkStep, if_neg hflag]
    rw [hflag2]
    exact ⟨rfl, by simpa using hch, by simp, fun j => rfl, fun j _ => rfl⟩

theorem relinkLoop_spec :
    ∀ (i : Nat) (v : List Elem) (h c : Nat) (S : List Nat),
      isChain v NULL_INDEX h S = true →
      S.Nodup →
      (∀ j ∈ S, i < j ∧ j < v.length ∧ (getE v j).is_empty = true) →
      (∀ j, i < j → j < v.length → (getE v j).is_empty = true → j ∈ S) →
      i < v.length →
      v.length ≤ NULL_INDEX →
      (relinkLoop i v h c).1.length = v.length ∧
      isChain (relinkLoop i v h c).1 NULL_INDEX (relinkLoop i v h c).2.1
        (((List.range (i + 1)).filter (fun j => (getE v j).is_empty)) ++ S) = true ∧
      (relinkLoop i v h c).2.2
        = c + ((List.range (i + 1)).filter (fun j => (getE v j).is_empty)).length ∧
      (∀ j, (getE (relinkLoop i v h c).1 j).is_empty = (getE v j).is_empty) ∧
      (∀ j, (getE v j).is_empty = false →
        getE (relinkLoop i v h c).1 j = getE v j) := by
  intro i
  induction i with
  | zero =>
    intro v h c S hch hnd hS hcomp hilen hnul
    have hstep := relinkStep_spec v h c 0 S hch hnd
      (fun j hj => ⟨(hS j hj).1, (hS j hj).2.1⟩) (fun j hj => (hS j hj).2.2) hilen hnul
    obtain ⟨hs1, hs2, hs3, hs4, hs5⟩ := hstep
    have hfil : (List.range 1).filter (fun j => (getE v j).is_empty)
        = (if (getE v 0).is_empty then [0] else []) := by
      show List.filter _ [0] = _
      by_cases h0 : (getE v 0).is_empty
      · rw [if_pos h0]
        simp [List.filter, h0]
      · rw [if_neg h0]
        simp only [Bool.not_eq_true] at h0
        simp [List.filter, h0]
    rw [relinkLoop, hfil]
    refine ⟨hs1, hs2, ?_, hs4, hs5⟩
    rw [hs3]
    by_cases h0 : (getE v 0).is_empty
    · rw [if_pos h0, if_pos h0]
      rfl
    · rw [if_neg h0, if_neg h0]
      rfl
  | succ i2 ih =>
    intro v h c S hch hnd hS hcomp hilen hnul
    have hstep := relinkStep_spec v h c (i2 + 1) S hch hnd
      (fun j hj => ⟨(hS j hj).1, (hS j hj).2.1⟩) (fun j hj => (hS j hj).2.2) hilen hnul
    obtain ⟨hs1, hs2, hs3, hs4, hs5⟩ := hstep
    have hSnotmem : (i2 + 1) ∉ S := by
      intro hc2
      exact Nat.lt_irrefl _ (hS _ hc2).1
    have hnd2 : ((if (getE v (i2 + 1)).is_empty then [i2 + 1] else []) ++ S).Nodup := by
      by_cases hf : (getE v (i2 + 1)).is_empty
      · rw [if_pos hf, List.singleton_append, List.nodup_cons]
        exact ⟨hSnotmem, hnd⟩
      · rw [if_neg hf, List.nil_append]
        exact hnd
    have hS2 : ∀ j ∈ (if (getE v (i2 + 1)).is_empty then [i2 + 1] else []) ++ S,
        i2 < j ∧ j < (relinkStep v h c (i2 + 1)).1.length ∧
          (getE (relinkStep v h c (i2 + 1)).1 j).is_empty = true := by
      intro j hj
      rcases List.mem_append.mp hj with h1 | h1
      · by_cases hf : (getE v (i2 + 1)).is_empty
        · rw [if_pos hf] at h1
          have h2 : j = i2 + 1 := List.mem_singleton.mp h1
          subst h2
          rw [hs1, hs4]
          exact ⟨by omega, hilen, hf⟩
        · rw [if_neg hf] at h1
          simp at h1
      · have h4 := (hS j h1).1
        rw [hs1, hs4]
        exact ⟨by omega, (hS j h1).2.1, (hS j h1).2.2⟩
    have hcomp2 : ∀ j, i2 < j → j < (relinkStep v h c (i2 + 1)).1.length →
        (getE (relinkStep v h c (i2 + 1)).1 j).is_empty = true →
        j ∈ (if (getE v (i2 + 1)).is_empty then [i2 + 1] else []) ++ S := by
      intro j h1 h2 h3
      rw [hs1] at h2
      rw [hs4] at h3
      by_cases hj : j = i2 + 1
      · subst hj
        rw [if_pos h3]
        exact List.mem_append_left _ (List.mem_singleton.mpr rfl)
      · exact List.mem_append_right _ (hcomp j (by omega) h2 h3)
    have hih := ih (relinkStep v h c (i2 + 1)).1 (relinkStep v h c (i2 + 1)).2.1
      (relinkStep v h c (i2 + 1)).2.2
      ((if (getE v (i2 + 1)).is_empty then [i2 + 1] else []) ++ S)
      hs2 hnd2 hS2 hcomp2 (by rw [hs1]; omega) (by rw [hs1]; exact hnul)
    obtain ⟨ih1, ih2, ih3, ih4, ih5⟩ := hih
    have hloop : relinkLoop (i2 + 1) v h c
        = relinkLoop i2 (relinkStep v h c (i2 + 1)).1
          (relinkStep v h c (i2 + 1)).2.1 (relinkStep v h c (i2 + 1)).2.2 := by
      rw [relinkLoop]
    have hfeq : ∀ j ∈ List.range (i2 + 1),
        (getE (relinkStep v h c (i2 + 1)).1 j).is_empty = (getE v j).is_empty :=
      fun j _ => hs4 j
    have hfil2 : (List.range (i2 + 1)).filter
          (fun j => (getE (relinkStep v h c (i2 + 1)).1 j).is_empty)
        = (List.range (i2 + 1)).filter (fun j => (getE v j).is_empty) :=
      List.filter_congr hfeq
    have hfil3 : (List.range (i2 + 2)).filter (fun j => (getE v j).is_empty)
        = (List.range (i2 + 1)).filter (fun j => (getE v j).is_empty)
          ++ (if (getE v (i2 + 1)).is_empty then [i2 + 1] else []) := by
      rw [List.range_succ, List.filter_append]
      congr 1
      by_cases hf : (getE v (i2 + 1)).is_empty
      · rw [if_pos hf]
        simp [List.filter, hf]
      · rw [if_neg hf]
        simp only [Bool.not_eq_true] at hf
        simp [List.filter, hf]
    rw [hloop]
    refine ⟨by rw [ih1, hs1], ?_, ?_, ?_, ?_⟩
    · rw [hfil3, List.append_assoc]
      rw [hfil2] at ih2
      exact ih2
    · rw [ih3, hs3, hfil3, hfil2]
      rw [List.length_append]
      by_cases hf : (getE v (i2 + 1)).is_empty
      · rw [if_pos hf, if_pos hf]
        simp
        omega
      · rw [if_neg hf, if_neg hf]
        simp
    · intro j
      rw [ih4 j, hs4 j]
    · intro j h2
      rw [ih5 j (by rw [hs4]; exact h2)]
      exact hs5 j h2

theorem length_resizeVec (v : List Elem) (k : Nat) : (resizeVec v k).length = k := by
  rw [resizeVec]
  split_ifs with h
  · rw [List.length_take]
    omega
  · rw [List.length_append, List.length_replicate]
    omega

theorem getE_resizeVec_lt (v : List Elem) (k i : Nat) (hik : i < k)
    (hil : i < v.length) : getE (resizeVec v k) i = getE v i := by
  rw [resizeVec]
  split_ifs with h
  · exact getE_take v k i hik
  · exact getE_append_left _ _ _ hil

theorem resize_down_setup (m : SlabManager) (pos : Nat)
    (hlen1 : 1 ≤ m.elem_vec.length)
    (hpos_lt : pos < m.elem_vec.length)
    (hpos_used : (getE m.elem_vec pos).is_empty = false)
    (htrail : ∀ j, pos < j → j < m.elem_vec.length →
      (getE m.elem_vec j).is_empty = true) :
    scanLoop (m.elem_vec.length - 1) m.elem_vec 0
      = (pos, m.elem_vec.length - 1 - pos) := by
  have h1 := scanLoop_found m.elem_vec pos hpos_used (m.elem_vec.length - 1) 0
    (by omega) (fun j hj1 hj2 => htrail j hj1 (by omega))
  simpa using h1

theorem resize_down_noop_last (m : SlabManager) (newsize pos : Nat)
    (hlen1 : 1 ≤ m.elem_vec.length)
    (hlenN : m.elem_vec.length < NULL_INDEX)
    (hlt : newsize < m.elem_vec.length)
    (hpos_lt : pos < m.elem_vec.length)
    (hpos_used : (getE m.elem_vec pos).is_empty = false)
    (htrail : ∀ j, pos < j → j < m.elem_vec.length →
      (getE m.elem_vec j).is_empty = true)
    (hlast : pos = m.elem_vec.length - 1) :
    m.resize newsize = m := by
  have hscan := resize_down_setup m pos hlen1 hpos_lt hpos_used htrail
  simp only [SlabManager.resize]
  rw [if_neg (by omega), if_neg (by omega), hscan]
  simp only
  rw [if_neg (by
    intro hc
    have : pos < NULL_INDEX := by omega
    omega), if_pos hlast]

theorem resize_down_noop_guard (m : SlabManager) (newsize pos : Nat)
    (hlen1 : 1 ≤ m.elem_vec.length)
    (hlenN : m.elem_vec.length < NULL_INDEX)
    (hlt : newsize < m.elem_vec.length)
    (hpos_lt : pos < m.elem_vec.length)
    (hpos_used : (getE m.elem_vec pos).is_empty = false)
    (htrail : ∀ j, pos < j → j < m.elem_vec.length →
      (getE m.elem_vec j).is_empty = true)
    (hnotlast : ¬(pos = m.elem_vec.length - 1))
    (hguard : sub64 m.empty_cnt (m.elem_vec.length - 1 - pos) < 4) :
    m.resize newsize = m := by
  have hscan := resize_down_setup m pos hlen1 hpos_lt hpos_used htrail
  simp only [SlabManager.resize]
  rw [if_neg (by omega), if_neg (by omega), hscan]
  simp only
  rw [if_neg (by
    intro hc
    have : pos < NULL_INDEX := by omega
    omega), if_neg hnotlast, if_pos hguard]

theorem resize_down_all_free_spec (m : SlabManager) (fl ul : List Nat)
    (newsize : Nat) (hwf : WF m fl ul)
    (hlt : newsize < m.elem_vec.length)
    (hall : ∀ j, j < m.elem_vec.length → (getE m.elem_vec j).is_empty = true) :
    (m.resize newsize).elem_vec.length = (if 0 < newsize then newsize else 1) ∧
    WF (m.resize newsize) (List.range (if 0 < newsize then newsize else 1)) [] ∧
    (m.resize newsize).empty_cnt = (if 0 < newsize then newsize else 1) ∧
    (m.resize newsize).filled_cnt = 0 := by
  obtain ⟨hlen1, hlenN, _, _, _, _, _, _, _⟩ := hwf
  have hscan := scanLoop_no_used m.elem_vec (m.elem_vec.length - 1) 0
    (fun j hj => hall j (by omega))
  have hns1 : 1 ≤ (if 0 < newsize then newsize else 1) := by
    split_ifs <;> omega
  have hnsle : (if 0 < newsize then newsize else 1) ≤ m.elem_vec.length := by
    split_ifs <;> omega
  have hres : m.resize newsize
      = SlabManager.initialize
        { m with elem_vec := resizeVec m.elem_vec (if 0 < newsize then newsize else 1) }
        (resizeVec m.elem_vec (if 0 < newsize then newsize else 1)).length := by
    simp only [SlabManager.resize]
    rw [if_neg (by omega), if_neg (by omega), hscan]
    dsimp only
    rw [if_pos rfl]
  have hrl : (resizeVec m.elem_vec (if 0 < newsize then newsize else 1)).length
      = (if 0 < newsize then newsize else 1) := length_resizeVec _ _
  have hspec := initialize_spec
    { m with elem_vec := resizeVec m.elem_vec (if 0 < newsize then newsize else 1) }
    (resizeVec m.elem_vec (if 0 < newsize then newsize else 1)).length
    rfl (by rw [hrl]; exact hns1) (by rw [hrl]; omega)
  rw [hres, hrl] at *
  exact ⟨by rw [hspec.2.1], hspec.1, hspec.2.2.2.1, hspec.2.2.2.2⟩

theorem resize_down_accept_spec (m : SlabManager) (fl ul : List Nat)
    (newsize pos : Nat) (hwf : WF m fl ul)
    (hlt : newsize < m.elem_vec.length)
    (hpos_lt : pos < m.elem_vec.length)
    (hpos_used : (getE m.elem_vec pos).is_empty = false)
    (htrail : ∀ j, pos < j → j < m.elem_vec.length →
      (getE m.elem_vec j).is_empty = true)
    (hnotlast : ¬(pos = m.elem_vec.length - 1))
    (hguard : 4 ≤ m.empty_cnt - (m.elem_vec.length - 1 - pos)) :
    (m.resize newsize).elem_vec.length = downTarget newsize pos ∧
    (m.resize newsize).filled_head = m.filled_head ∧
    (m.resize newsize).filled_cnt = m.filled_cnt ∧
    (∀ i, i < m.elem_vec.length → (getE m.elem_vec i).is_empty = false →
      i < downTarget newsize pos ∧
      getE (m.resize newsize).elem_vec i = getE m.elem_vec i) ∧
    WF (m.resize newsize)
      ((List.range (downTarget newsize pos)).filter
        (fun j => (getE m.elem_vec j).is_empty)) ul := by
  have hwf0 := hwf
  obtain ⟨hlen1, hlenN, hfc, huc, hff, huf, hperm, hec, hfcnt⟩ := hwf
  have hscan := resize_down_setup m pos hlen1 hpos_lt hpos_used htrail
  have hlen2 : 2 ≤ m.elem_vec.length := by omega
  have hL1 : pos + 1 ≤ downTarget newsize pos := by
    rw [downTarget]
    split_ifs <;> omega
  have hLle : downTarget newsize pos ≤ m.elem_vec.length - 1 := by
    rw [downTarget]
    split_ifs <;> omega
  have hul_lt : ∀ i ∈ ul, i < m.elem_vec.length :=
    fun i hi => isChain_mem_lt _ _ _ _ huc i hi
  have hndall := WF_nodup _ _ _ hwf0
  have hndu : ul.Nodup := (List.nodup_append.mp hndall).2.1
  have htr_sub : List.range' (pos + 1) (m.elem_vec.length - 1 - pos) ⊆ fl := by
    intro j hj
    have h1 := List.mem_range'_1.mp hj
    rw [WF_mem_free m fl ul hwf0 j]
    exact ⟨by omega, htrail j (by omega) (by omega)⟩
  have hcnt_le : m.elem_vec.length - 1 - pos ≤ m.empty_cnt := by
    have hnd := List.nodup_range' (s := pos + 1) (n := m.elem_vec.length - 1 - pos)
    have h1 := (List.subperm_of_subset hnd htr_sub).length_le
    rw [hec]
    simpa using h1
  have hecU : m.empty_cnt < U64 := by
    have h1 := WF_length_sum _ _ _ hwf0
    have h2 := NULL_lt_U64
    omega
  have hsubeq : sub64 m.empty_cnt (m.elem_vec.length - 1 - pos)
      = m.empty_cnt - (m.elem_vec.length - 1 - pos) :=
    sub64_small _ _ hcnt_le hecU
  have hres : m.resize newsize =
      { empty_head := (relinkLoop (downTarget newsize pos - 1)
          (resizeVec m.elem_vec (downTarget newsize pos)) NULL_INDEX 0).2.1
      , filled_head := m.filled_head
      , empty_cnt := (relinkLoop (downTarget newsize pos - 1)
          (resizeVec m.elem_vec (downTarget newsize pos)) NULL_INDEX 0).2.2
      , filled_cnt := m.filled_cnt
      , elem_vec := (relinkLoop (downTarget newsize pos - 1)
          (resizeVec m.elem_vec (downTarget newsize pos)) NULL_INDEX 0).1 } := by
    simp only [SlabManager.resize]
    rw [if_neg (by omega), if_neg (by omega), hscan]
    dsimp only
    rw [if_neg (by
      intro hc
      have h3 : pos < NULL_INDEX := by omega
      omega), if_neg hnotlast]
    rw [hsubeq, if_neg (by omega)]
    rw [length_resizeVec]
    simp only [downTarget]
  have hv1len : (resizeVec m.elem_vec (downTarget newsize pos)).length
      = downTarget newsize pos := length_resizeVec _ _
  have hv1get : ∀ i, i < downTarget newsize pos →
      getE (resizeVec m.elem_vec (downTarget newsize pos)) i = getE m.elem_vec i := by
    intro i hi
    exact getE_resizeVec_lt _ _ _ hi (by omega)
  have hrel := relinkLoop_spec (downTarget newsize pos - 1)
    (resizeVec m.elem_vec (downTarget newsize pos)) NULL_INDEX 0 []
    (by rw [isChain_nil_iff]) List.nodup_nil
    (by intro j hj; simp at hj)
    (by intro j h1 h2 _; rw [hv1len] at h2; omega)
    (by rw [hv1len]; omega)
    (by rw [hv1len]; omega)
  obtain ⟨hr1, hr2, hr3, hr4, hr5⟩ := hrel
  have hLL : downTarget newsize pos - 1 + 1 = downTarget newsize pos := by omega
  rw [hLL, List.append_nil] at hr2
  rw [hLL] at hr3
  have hfilc : (List.range (downTarget newsize pos)).filter
        (fun j => (getE (resizeVec m.elem_vec (downTarget newsize pos)) j).is_empty)
      = (List.range (downTarget newsize pos)).filter
        (fun j => (getE m.elem_vec j).is_empty) :=
    List.filter_congr (fun j hj => by rw [hv1get j (List.mem_range.mp hj)])
  rw [hfilc] at hr2 hr3
  have hul_le_pos : ∀ i ∈ ul, i ≤ pos := by
    intro i hi
    by_contra hcon
    have h1 := htrail i (by omega) (hul_lt i hi)
    rw [huf i hi] at h1
    exact absurd h1 (by simp)
  have hused_frame : ∀ i, i < m.elem_vec.length →
      (getE m.elem_vec i).is_empty = false →
      i < downTarget newsize pos ∧
      getE (relinkLoop (downTarget newsize pos - 1)
        (resizeVec m.elem_vec (downTarget newsize pos)) NULL_INDEX 0).1 i
        = getE m.elem_vec i := by
    intro i h1 h2
    have hile : i ≤ pos := by
      by_contra hcon
      have h3 := htrail i (by omega) h1
      rw [h2] at h3
      exact absurd h3 (by simp)
    have hiL : i < downTarget newsize pos := by omega
    refine ⟨hiL, ?_⟩
    rw [hr5 i (by rw [hv1get i hiL]; exact h2), hv1get i hiL]
  rw [hres]
  refine ⟨by rw [hr1, hv1len], rfl, rfl, ?_, ?_⟩
  · intro i h1 h2
    exact hused_frame i h1 h2
  · unfold WF
    simp only
    rw [hr1, hv1len]
    refine ⟨by omega, by omega, hr2, ?_, ?_, ?_, ?_, ?_, hfcnt⟩
    · -- used chain
      apply isChain_mono m.elem_vec _ ul _ _ huc
      · intro i hi
        rw [(hused_frame i (hul_lt i hi) (huf i hi)).2]
        exact ⟨rfl, rfl⟩
      · intro i hi _
        rw [hr1, hv1len]
        have := hul_le_pos i hi
        omega
    · -- flags of the rebuilt free list
      intro i hi
      have h1 := List.mem_filter.mp hi
      have h2 : i < downTarget newsize pos := List.mem_range.mp h1.1
      rw [hr4 i, hv1get i h2]
      exact h1.2
    · -- flags of the used list
      intro i hi
      have h1 := (hused_frame i (hul_lt i hi) (huf i hi)).2
      rw [h1]
      exact huf i hi
    · -- permutation
      rw [List.perm_ext_iff_of_nodup ?_ (List.nodup_range _)]
      · intro a
        constructor
        · intro ha
          rcases List.mem_append.mp ha with h1 | h1
          · exact (List.mem_filter.mp h1).1
          · rw [List.mem_range]
            have := hul_le_pos a h1
            omega
        · intro ha
          have haL : a < downTarget newsize pos := List.mem_range.mp ha
          by_cases hfa : (getE m.elem_vec a).is_empty = true
          · exact List.mem_append_left _
              (List.mem_filter.mpr ⟨List.mem_range.mpr haL, hfa⟩)
          · have hfa2 : (getE m.elem_vec a).is_empty = false := by
              cases hx : (getE m.elem_vec a).is_empty
              · rfl
              · exact absurd hx hfa
            apply List.mem_append_right
            rw [WF_mem_used m fl ul hwf0 a]
            exact ⟨by omega, hfa2⟩
      · apply List.Nodup.append
        · exact (List.nodup_range _).filter _
        · exact hndu
        · intro a ha1 ha2
          have h1 := (List.mem_filter.mp ha1).2
          rw [huf a ha2] at h1
          exact absurd h1 (by simp)
    · -- empty count
      rw [hr3]
      simp

theorem exists_greatest_used (v : List Elem) :
    ∀ n : Nat, (∃ j, j < n ∧ (getE v j).is_empty = false) →
      ∃ p, p < n ∧ (getE v p).is_empty = false ∧
        ∀ j, p < j → j < n → (getE v j).is_empty = true := by
  intro n
  induction n with
  | zero =>
    rintro ⟨j, hj, _⟩
    omega
  | succ k ih =>
    rintro ⟨j, hj, hjf⟩
    by_cases hk : (getE v k).is_empty = false
    · exact ⟨k, by omega, hk, fun j2 h1 h2 => absurd h2 (by omega)⟩
    · have hkt : (getE v k).is_empty = true := by
        cases hx : (getE v k).is_empty
        · exact absurd hx hk
        · rfl
      have hjk : j < k := by
        by_cases hjk2 : j = k
        · rw [hjk2] at hjf
          exact absurd hjf hk
        · omega
      obtain ⟨p, hp1, hp2, hp3⟩ := ih ⟨j, hjk, hjf⟩
      refine ⟨p, by omega, hp2, ?_⟩
      intro j2 h1 h2
      by_cases hj2 : j2 = k
      · rw [hj2]
        exact hkt
      · exact hp3 j2 h1 (by omega)

theorem trailing_le_ec (m : SlabManager) (fl ul : List Nat) (pos : Nat)
    (hwf : WF m fl ul)
    (hpos_lt : pos < m.elem_vec.length)
    (htrail : ∀ j, pos < j → j < m.elem_vec.length →
      (getE m.elem_vec j).is_empty = true) :
    m.elem_vec.length - 1 - pos ≤ m.empty_cnt := by
  have hwf0 := hwf
  obtain ⟨_, _, _, _, _, _, _, hec, _⟩ := hwf0
  have htr_sub : List.range' (pos + 1) (m.elem_vec.length - 1 - pos) ⊆ fl := by
    intro j hj
    have h1 := List.mem_range'_1.mp hj
    rw [WF_mem_free m fl ul hwf j]
    exact ⟨by omega, htrail j (by omega) (by omega)⟩
  have hnd := List.nodup_range' (s := pos + 1) (n := m.elem_vec.length - 1 - pos)
  have h1 := (List.subperm_of_subset hnd htr_sub).length_le
  rw [hec]
  simpa using h1

theorem ec_lt_U64 (m : SlabManager) (fl ul : List Nat) (hwf : WF m fl ul) :
    m.empty_cnt < U64 := by
  have hwf0 := hwf
  obtain ⟨_, hlenN, _, _, _, _, _, hec, _⟩ := hwf0
  have h1 := WF_length_sum _ _ _ hwf
  have h2 := NULL_lt_U64
  omega

theorem resize_inv (m : SlabManager) (newsize : Nat) (hinv : InvSM m)
    (hns : newsize < NULL_INDEX) : InvSM (m.resize newsize) := by
  obtain ⟨fl, ul, hwf⟩ := hinv
  by_cases h1 : m.elem_vec.length = newsize
  · have he : m.resize newsize = m := by
      simp only [SlabManager.resize]
      rw [if_pos h1]
    rw [he]
    exact ⟨fl, ul, hwf⟩
  by_cases h2 : newsize > m.elem_vec.length
  · exact ⟨_, ul, (resize_up_spec m fl ul newsize hwf h2 hns).2.2.2.2.2⟩
  have hlt : newsize < m.elem_vec.length := by omega
  by_cases h3 : ∀ j, j < m.elem_vec.length → (getE m.elem_vec j).is_empty = true
  · exact ⟨_, [], (resize_down_all_free_spec m fl ul newsize hwf hlt h3).2.1⟩
  · push_neg at h3
    obtain ⟨j0, hj0, hj0f⟩ := h3
    have hj0f2 : (getE m.elem_vec j0).is_empty = false := by
      cases hx : (getE m.elem_vec j0).is_empty
      · rfl
      · exact absurd hx hj0f
    obtain ⟨pos, hp1, hp2, hp3⟩ := exists_greatest_used m.elem_vec
      m.elem_vec.length ⟨j0, hj0, hj0f2⟩
    have hlen1 : 1 ≤ m.elem_vec.length := hwf.1
    have hlenN : m.elem_vec.length < NULL_INDEX := hwf.2.1
    by_cases h4 : pos = m.elem_vec.length - 1
    · rw [resize_down_noop_last m newsize pos hlen1 hlenN hlt hp1 hp2 hp3 h4]
      exact ⟨fl, ul, hwf⟩
    · by_cases h5 : m.empty_cnt - (m.elem_vec.length - 1 - pos) < 4
      · have hcle := trailing_le_ec m fl ul pos hwf hp1 hp3
        have hecU := ec_lt_U64 m fl ul hwf
        rw [resize_down_noop_guard m newsize pos hlen1 hlenN hlt hp1 hp2 hp3 h4
          (by rw [sub64_small _ _ hcle hecU]; exact h5)]
        exact ⟨fl, ul, hwf⟩
      · exact ⟨_, ul, (resize_down_accept_spec m fl ul newsize pos hwf hlt hp1 hp2
          hp3 h4 (by omega)).2.2.2.2⟩

theorem reachable_inv : ∀ m : SlabManager, Reachable m → InvSM m := by
  intro m h
  induction h with
  | construct n hn => exact ⟨_, _, (construct_spec n hn).1⟩
  | acquire m hm hsz ih =>
    obtain ⟨fl, ul, hwf⟩ := ih
    cases fl with
    | nil => exact ⟨[], _, (acquire_nil_spec m ul hwf).2.2.2.2.2 hsz⟩
    | cons f fs => exact ⟨fs, f :: ul, (acquire_cons_spec m f fs ul hwf).2.2.2.2⟩
  | give_back m ind hm ih =>
    obtain ⟨fl, ul, hwf⟩ := ih
    by_cases h1 : ind < m.elem_vec.length
    · by_cases h2 : (getE m.elem_vec ind).is_empty = true
      · rw [give_back_dbl_eq m ind h1 h2]
        exact ⟨fl, ul, hwf⟩
      · have h2f : (getE m.elem_vec ind).is_empty = false := by
          cases hx : (getE m.elem_vec ind).is_empty
          · rfl
          · exact absurd hx h2
        have hmem : ind ∈ ul := (WF_mem_used m fl ul hwf ind).mpr ⟨h1, h2f⟩
        obtain ⟨u1, u2, rfl⟩ := List.append_of_mem hmem
        exact ⟨_, _, (give_back_spec m fl u1 u2 ind hwf).2.2.2.2.2.2⟩
    · rw [give_back_oob_eq m ind (by omega)]
      exact ⟨fl, ul, hwf⟩
  | clear m hm ih =>
    obtain ⟨fl, ul, hwf⟩ := ih
    exact ⟨_, _, (clear_spec m fl ul hwf).1⟩
  | resize m ns hm hns ih => exact resize_inv m ns ih hns
  | reserve m k hm ih => exact ih
  | resize_to_min m hm ih =>
    exact resize_inv m 1 ih (by norm_num [NULL_INDEX, U64])
  | shrink_to_fit m hm ih => exact ih

theorem takeWhile_all (p : Nat → Bool) (l1 l2 : List Nat)
    (h : ∀ x ∈ l1, p x = true) :
    (l1 ++ l2).takeWhile p = l1 ++ l2.takeWhile p := by
  induction l1 with
  | nil => simp
  | cons a l1' ih =>
    rw [List.cons_append]
    have hpa := h a (List.mem_cons_self _ _)
    simp only [List.takeWhile_cons, hpa]
    rw [ih (fun x hx => h x (List.mem_cons_of_mem _ hx))]
    rfl

theorem trailingFreeCount_eq (v : List Elem) (pos : Nat)
    (hpos_lt : pos < v.length)
    (hpos_used : (getE v pos).is_empty = false)
    (htrail : ∀ j, pos < j → j < v.length → (getE v j).is_empty = true) :
    trailingFreeCount v = v.length - 1 - pos := by
  have hsplit : List.range v.length
      = List.range (pos + 1) ++ List.range' (pos + 1) (v.length - 1 - pos) := by
    rw [List.range_eq_range', List.range_eq_range']
    have h1 := List.range'_append 0 (pos + 1) (v.length - 1 - pos) 1
    simp only [Nat.one_mul, Nat.zero_add] at h1
    have h2 : v.length - 1 - pos + (pos + 1) = v.length := by omega
    rw [h1, h2]
  rw [trailingFreeCount, hsplit, List.reverse_append]
  rw [takeWhile_all _ _ _ (by
    intro x hx
    have h1 := List.mem_range'_1.mp (List.mem_reverse.mp hx)
    exact htrail x (by omega) (by omega))]
  have hr : (List.range (pos + 1)).reverse = pos :: (List.range pos).reverse := by
    rw [List.range_succ, List.reverse_append]
    simp
  rw [hr]
  simp only [List.takeWhile_cons, hpos_used]
  simp

/-- C1: after every public operation — construction with any n, acquire,
    give_back, clear, resize with any newsize, reserve, shrink_to_fit — i.e.
    in every state reachable through the public interface, the cached counts
    satisfy free_count + used_count = size(). -/
theorem spec_C1_counts_invariant (m : SlabManager) (h : Reachable m) :
    m.empty_count + m.filled_count = m.size := by
  obtain ⟨fl, ul, hwf⟩ := reachable_inv m h
  have h1 := WF_length_sum _ _ _ hwf
  obtain ⟨_, _, _, _, _, _, _, hec, hfc⟩ := hwf
  rw [SlabManager.empty_count, SlabManager.filled_count, SlabManager.size, hec, hfc]
  exact h1

/-- C1 witness: the invariant holds after construct(3) followed by acquire. -/
theorem spec_C1_witness :
    Reachable ((SlabManager.construct 3).acquire).1 ∧
    ((SlabManager.construct 3).acquire).1.empty_count
      + ((SlabManager.construct 3).acquire).1.filled_count
      = ((SlabManager.construct 3).acquire).1.size := by
  have hr : Reachable ((SlabManager.construct 3).acquire).1 :=
    Reachable.acquire _ (Reachable.construct 3 (by decide)) (by decide)
  exact ⟨hr, spec_C1_counts_invariant _ hr⟩

/-- C2: acquire returns an index whose slot is not empty immediately after
    the call; if the free list is non-empty it pops and returns its head,
    decrementing free_count and incrementing used_count; if the free list is
    empty it appends exactly one new slot, places it at the head of the used
    list, and returns the old size() as the index. -/
theorem spec_C2_acquire (m : SlabManager) (fl ul : List Nat) (hwf : WF m fl ul) :
    (getE (m.acquire).1.elem_vec (m.acquire).2).is_empty = false ∧
    (m.acquire).1.is_slot_empty (m.acquire).2 = Except.ok false ∧
    (∀ f fs, fl = f :: fs →
      (m.acquire).2 = f ∧
      (m.acquire).1.elem_vec.length = m.elem_vec.length ∧
      (m.acquire).1.empty_cnt = m.empty_cnt - 1 ∧
      (m.acquire).1.filled_cnt = m.filled_cnt + 1 ∧
      (m.acquire).1.filled_head = f ∧
      WF (m.acquire).1 fs (f :: ul)) ∧
    (fl = [] →
      (m.acquire).2 = m.elem_vec.length ∧
      (m.acquire).1.elem_vec.length = m.elem_vec.length + 1 ∧
      (m.acquire).1.filled_head = m.elem_vec.length ∧
      (m.elem_vec.length + 1 < NULL_INDEX →
        WF (m.acquire).1 [] (m.elem_vec.length :: ul))) := by
  cases fl with
  | nil =>
    obtain ⟨hret, hlen, hfh, hflag, hecq, hwfq⟩ := acquire_nil_spec m ul hwf
    refine ⟨by rw [hret]; exact hflag, ?_, ?_, ?_⟩
    · rw [SlabManager.is_slot_empty, if_neg (by rw [hret, hlen]; omega)]
      rw [hret, hflag]
    · intro f fs hc
      exact absurd hc (by simp)
    · intro _
      exact ⟨hret, hlen, hfh, hwfq⟩
  | cons f2 fs2 =>
    obtain ⟨hret, hlen, hfh, hflag, hwfq⟩ := acquire_cons_spec m f2 fs2 ul hwf
    have hec0 : m.empty_cnt = fs2.length + 1 := by
      have := hwf.2.2.2.2.2.2.2.1
      simpa using this
    have hecq : (m.acquire).1.empty_cnt = fs2.length := hwfq.2.2.2.2.2.2.2.1
    have hfcq : (m.acquire).1.filled_cnt = ul.length + 1 := by
      have := hwfq.2.2.2.2.2.2.2.2
      simpa using this
    have hfc0 : m.filled_cnt = ul.length := hwf.2.2.2.2.2.2.2.2
    refine ⟨by rw [hret]; exact hflag, ?_, ?_, ?_⟩
    · rw [SlabManager.is_slot_empty, if_neg (by
        rw [hret, hlen]
        have h1 := hwf.2.2.1
        have h2 := ((isChain_cons_iff ..).mp h1).2.1
        omega)]
      rw [hret, hflag]
    · intro f fs hc
      injection hc with hc1 hc2
      subst hc1
      subst hc2
      refine ⟨hret, hlen, by omega, by omega, hfh, hwfq⟩
    · intro hc
      exact absurd hc (by simp)

/-- C2 witness: on construct(2) the first acquire returns the free-list head
    0, and the slot is not empty afterwards. -/
theorem spec_C2_witness :
    ((SlabManager.construct 2).acquire).2 = 0 ∧
    (getE ((SlabManager.construct 2).acquire).1.elem_vec 0).is_empty = false := by
  have h := spec_C2_acquire (SlabManager.construct 2) [0, 1] [] (by decide)
  refine ⟨(h.2.2.1 0 [1] rfl).1, ?_⟩
  have h2 := h.1
  rw [(h.2.2.1 0 [1] rfl).1] at h2
  exact h2

/-- C3: give_back on an in-bounds free slot fails with the double-release
    logic error and leaves the state unchanged (the returned state is m
    itself); on an in-bounds used slot it succeeds, makes the slot empty,
    moves it to the head of the free list, decrements used_count and
    increments free_count. -/
theorem spec_C3_give_back (m : SlabManager) (fl ul : List Nat) (ind : Nat)
    (hwf : WF m fl ul) (hind : ind < m.elem_vec.length) :
    ((getE m.elem_vec ind).is_empty = true →
      m.give_back ind = (m, some SMErr.logicError)) ∧
    ((getE m.elem_vec ind).is_empty = false →
      (m.give_back ind).2 = none ∧
      (m.give_back ind).1.is_slot_empty ind = Except.ok true ∧
      (m.give_back ind).1.empty_head = ind ∧
      (m.give_back ind).1.filled_cnt = m.filled_cnt - 1 ∧
      (m.give_back ind).1.empty_cnt = m.empty_cnt + 1 ∧
      ∃ u1 u2, ul = u1 ++ ind :: u2 ∧
        WF (m.give_back ind).1 (ind :: fl) (u1 ++ u2)) := by
  constructor
  · intro hflag
    exact give_back_dbl_eq m ind hind hflag
  · intro hflag
    have hmem : ind ∈ ul := (WF_mem_used m fl ul hwf ind).mpr ⟨hind, hflag⟩
    obtain ⟨u1, u2, hsplit⟩ := List.append_of_mem hmem
    subst hsplit
    obtain ⟨h1, h2, h3, h4, h5, h6, h7⟩ := give_back_spec m fl u1 u2 ind hwf
    refine ⟨h1, ?_, h2, h6, h5, u1, u2, rfl, h7⟩
    rw [SlabManager.is_slot_empty, if_neg (by rw [h3]; omega)]
    rw [h4]

/-- C3 witness: on the state with slot 0 used and slot 1 free, give_back 0
    succeeds and makes slot 0 empty; double release on the free slot 1
    fails and returns the state unchanged. -/
theorem spec_C3_witness :
    ((acq1 (SlabManager.construct 2)).give_back 0).2 = none ∧
    ((acq1 (SlabManager.construct 2)).give_back 0).1.is_slot_empty 0
      = Except.ok true ∧
    (acq1 (SlabManager.construct 2)).give_back 1
      = (acq1 (SlabManager.construct 2), some SMErr.logicError) := by
  have h := spec_C3_give_back (acq1 (SlabManager.construct 2)) [1] [0] 0
    (by decide) (by decide)
  have h2 := spec_C3_give_back (acq1 (SlabManager.construct 2)) [1] [0] 1
    (by decide) (by decide)
  exact ⟨(h.2 (by decide)).1, (h.2 (by decide)).2.1, h2.1 (by decide)⟩

/-- C4: reuse is LIFO — for any valid state and any two distinct in-bounds
    used indices a and b, after give_back(a) then give_back(b), the next
    acquire() returns b and the acquire() after that returns a. -/
theorem spec_C4_lifo (m : SlabManager) (fl ul : List Nat) (a b : Nat)
    (hwf : WF m fl ul)
    (ha : a < m.elem_vec.length) (haf : (getE m.elem_vec a).is_empty = false)
    (hb : b < m.elem_vec.length) (hbf : (getE m.elem_vec b).is_empty = false)
    (hab : a ≠ b) :
    ∃ m1 m2 : SlabManager,
      m.give_back a = (m1, none) ∧
      m1.give_back b = (m2, none) ∧
      (m2.acquire).2 = b ∧
      ((m2.acquire).1.acquire).2 = a := by
  have hamem : a ∈ ul := (WF_mem_used m fl ul hwf a).mpr ⟨ha, haf⟩
  obtain ⟨u1, u2, hsplit⟩ := List.append_of_mem hamem
  subst hsplit
  obtain ⟨h1, _, _, _, _, _, hwf1⟩ := give_back_spec m fl u1 u2 a hwf
  have heq1 : m.give_back a = ((m.give_back a).1, none) := by
    rw [← h1]
  have hbmem : b ∈ u1 ++ u2 := by
    have h2 : b ∈ u1 ++ a :: u2 := (WF_mem_used m fl (u1 ++ a :: u2) hwf b).mpr ⟨hb, hbf⟩
    rcases List.mem_append.mp h2 with h3 | h3
    · exact List.mem_append_left _ h3
    · rcases List.mem_cons.mp h3 with h4 | h4
      · exact absurd h4.symm hab
      · exact List.mem_append_right _ h4
  obtain ⟨w1, w2, hsplit2⟩ := List.append_of_mem hbmem
  rw [hsplit2] at hwf1
  obtain ⟨h5, _, _, _, _, _, hwf2⟩ :=
    give_back_spec (m.give_back a).1 (a :: fl) w1 w2 b hwf1
  have heq2 : (m.give_back a).1.give_back b = (((m.give_back a).1.give_back b).1, none) := by
    rw [← h5]
  obtain ⟨hr1, _, _, _, hwf3⟩ :=
    acquire_cons_spec ((m.give_back a).1.give_back b).1 b (a :: fl) (w1 ++ w2) hwf2
  obtain ⟨hr2, _, _, _, _⟩ :=
    acquire_cons_spec (((m.give_back a).1.give_back b).1.acquire).1 a fl
      (b :: (w1 ++ w2)) hwf3
  exact ⟨(m.give_back a).1, ((m.give_back a).1.give_back b).1,
    heq1, heq2, hr1, hr2⟩

/-- C4 witness: with slots 0 and 1 used, give_back 0 then give_back 1 makes
    the next two acquires return 1 then 0. -/
theorem spec_C4_witness :
    ∃ m1 m2 : SlabManager,
      (acq1 (acq1 (SlabManager.construct 2))).give_back 0 = (m1, none) ∧
      m1.give_back 1 = (m2, none) ∧
      (m2.acquire).2 = 1 ∧
      ((m2.acquire).1.acquire).2 = 0 :=
  spec_C4_lifo (acq1 (acq1 (SlabManager.construct 2))) [] [1, 0] 0 1
    (by decide) (by decide) (by decide) (by decide) (by decide) (by decide)

theorem downTarget_eq_max (newsize pos : Nat) :
    downTarget newsize pos = max (max newsize 1) (pos + 1) := by
  rw [downTarget]
  split_ifs <;> omega

/-- C5: for every newsize < size(), resize never changes the record of any
    used slot (flag, prev, next) nor its index; when at least one used slot
    exists, either the call is a no-op or the array is truncated to
    max(max(newsize, 1), pos + 1) where pos is the highest used index, so
    every used slot survives the truncation. -/
theorem spec_C5_downsize_frame (m : SlabManager) (fl ul : List Nat)
    (newsize : Nat) (hwf : WF m fl ul) (hlt : newsize < m.elem_vec.length) :
    (∀ i, i < m.elem_vec.length → (getE m.elem_vec i).is_empty = false →
      i < (m.resize newsize).elem_vec.length ∧
      getE (m.resize newsize).elem_vec i = getE m.elem_vec i) ∧
    (∀ pos, pos < m.elem_vec.length → (getE m.elem_vec pos).is_empty = false →
      (∀ j, j < m.elem_vec.length → pos < j →
        (getE m.elem_vec j).is_empty = true) →
      m.resize newsize = m ∨
        (m.resize newsize).elem_vec.length = max (max newsize 1) (pos + 1)) := by
  have hwf0 := hwf
  have hlen1 : 1 ≤ m.elem_vec.length := hwf.1
  have hlenN : m.elem_vec.length < NULL_INDEX := hwf.2.1
  constructor
  · intro i h1 h2
    obtain ⟨pos, hp1, hp2, hp3⟩ :=
      exists_greatest_used m.elem_vec m.elem_vec.length ⟨i, h1, h2⟩
    by_cases h4 : pos = m.elem_vec.length - 1
    · rw [resize_down_noop_last m newsize pos hlen1 hlenN hlt hp1 hp2 hp3 h4]
      exact ⟨h1, rfl⟩
    · by_cases h5 : 4 ≤ m.empty_cnt - (m.elem_vec.length - 1 - pos)
      · have hacc :=
          resize_down_accept_spec m fl ul newsize pos hwf0 hlt hp1 hp2 hp3 h4 h5
        have h6 := hacc.2.2.2.1 i h1 h2
        exact ⟨by rw [hacc.1]; exact h6.1, h6.2⟩
      · have htle := trailing_le_ec m fl ul pos hwf0 hp1 hp3
        have hecU := ec_lt_U64 m fl ul hwf0
        rw [resize_down_noop_guard m newsize pos hlen1 hlenN hlt hp1 hp2 hp3 h4
          (by rw [sub64_small _ _ htle hecU]; omega)]
        exact ⟨h1, rfl⟩
  · intro pos h1 h2 h3
    have h3' : ∀ j, pos < j → j < m.elem_vec.length →
        (getE m.elem_vec j).is_empty = true := fun j a b => h3 j b a
    by_cases h4 : pos = m.elem_vec.length - 1
    · exact Or.inl (resize_down_noop_last m newsize pos hlen1 hlenN hlt h1 h2 h3' h4)
    · by_cases h5 : 4 ≤ m.empty_cnt - (m.elem_vec.length - 1 - pos)
      · have hacc :=
          resize_down_accept_spec m fl ul newsize pos hwf0 hlt h1 h2 h3' h4 h5
        exact Or.inr (by rw [hacc.1, downTarget_eq_max])
      · have htle := trailing_le_ec m fl ul pos hwf0 h1 h3'
        have hecU := ec_lt_U64 m fl ul hwf0
        exact Or.inl (resize_down_noop_guard m newsize pos hlen1 hlenN hlt h1 h2 h3' h4
          (by rw [sub64_small _ _ htle hecU]; omega))

/-- C5 witness: shrinking the 2-slot state with slot 0 used leaves slot 0
    unchanged, and the conclusion of the truncation alternative holds at
    pos = 0. -/
theorem spec_C5_witness :
    getE ((acq1 (SlabManager.construct 2)).resize 1).elem_vec 0
      = getE (acq1 (SlabManager.construct 2)).elem_vec 0 ∧
    ((acq1 (SlabManager.construct 2)).resize 1 = acq1 (SlabManager.construct 2) ∨
      ((acq1 (SlabManager.construct 2)).resize 1).elem_vec.length
        = max (max 1 1) (0 + 1)) := by
  have h := spec_C5_downsize_frame (acq1 (SlabManager.construct 2)) [1] [0] 1
    (by decide) (by decide)
  exact ⟨(h.1 0 (by decide) (by decide)).2, h.2 0 (by decide) (by decide) (by decide)⟩

/-- C6 counterexample: in the valid 10-slot state cexC6 (only slot 8 used,
    free list 9,7,6,…,0) the trailing free region has exactly 1 slot, which
    is smaller than 4, yet resize(1) is not a no-op: the guard in the code
    compares free_count − cnt (the non-trailing free slots, here 8) against
    4, not the trailing free region itself. -/
theorem spec_C6_counterexample :
    1 < cexC6.size ∧
    InvSM cexC6 ∧
    trailingFreeCount cexC6.elem_vec < 4 ∧
    cexC6.resize 1 ≠ cexC6 := by
  refine ⟨by decide, ⟨[9, 7, 6, 5, 4, 3, 2, 1, 0], [8], by decide⟩, by decide, by decide⟩

/-- C6 (amended): resize(newsize) with newsize < size() is a complete no-op
    whenever at least one used slot exists and fewer than 4 free slots lie
    outside the trailing free region, i.e. free_count minus the trailing
    free count is smaller than 4. -/
theorem spec_C6_downsize_noop (m : SlabManager) (fl ul : List Nat)
    (newsize : Nat) (hwf : WF m fl ul) (hlt : newsize < m.elem_vec.length)
    (hused : ∃ i, i < m.elem_vec.length ∧ (getE m.elem_vec i).is_empty = false)
    (hguard : m.empty_cnt - trailingFreeCount m.elem_vec < 4) :
    m.resize newsize = m := by
  have hwf0 := hwf
  have hlen1 : 1 ≤ m.elem_vec.length := hwf.1
  have hlenN : m.elem_vec.length < NULL_INDEX := hwf.2.1
  obtain ⟨pos, hp1, hp2, hp3⟩ :=
    exists_greatest_used m.elem_vec m.elem_vec.length hused
  by_cases h4 : pos = m.elem_vec.length - 1
  · exact resize_down_noop_last m newsize pos hlen1 hlenN hlt hp1 hp2 hp3 h4
  · have htfc := trailingFreeCount_eq m.elem_vec pos hp1 hp2 hp3
    have htle := trailing_le_ec m fl ul pos hwf0 hp1 hp3
    have hecU := ec_lt_U64 m fl ul hwf0
    rw [htfc] at hguard
    exact resize_down_noop_guard m newsize pos hlen1 hlenN hlt hp1 hp2 hp3 h4
      (by rw [sub64_small _ _ htle hecU]; omega)

/-- C6 witness: on the 2-slot state with slot 0 used and slot 1 free
    (trailing free count 1, no non-trailing frees), resize(1) is a no-op. -/
theorem spec_C6_witness :
    (acq1 (SlabManager.construct 2)).resize 1 = acq1 (SlabManager.construct 2) :=
  spec_C6_downsize_noop (acq1 (SlabManager.construct 2)) [1] [0] 1
    (by decide) (by decide) ⟨0, by decide, by decide⟩ (by decide)

/-- C7: during a downsize with at least one used slot whose highest used
    index pos is not the last index, the call is a no-op exactly when
    free_count − cnt < 4, where cnt = size() − 1 − pos is the number of
    trailing free slots after pos; the shrink proceeds iff
    free_count − cnt ≥ 4. -/
theorem spec_C7_shrink_guard (m : SlabManager) (fl ul : List Nat)
    (newsize pos : Nat) (hwf : WF m fl ul) (hlt : newsize < m.elem_vec.length)
    (hpos_lt : pos < m.elem_vec.length)
    (hpos_used : (getE m.elem_vec pos).is_empty = false)
    (htrail : ∀ j, j < m.elem_vec.length → pos < j →
      (getE m.elem_vec j).is_empty = true)
    (hnotlast : pos ≠ m.elem_vec.length - 1) :
    m.resize newsize = m ↔
      m.empty_cnt - (m.elem_vec.length - 1 - pos) < 4 := by
  have hwf0 := hwf
  have hlen1 : 1 ≤ m.elem_vec.length := hwf.1
  have hlenN : m.elem_vec.length < NULL_INDEX := hwf.2.1
  have htrail2 : ∀ j, pos < j → j < m.elem_vec.length →
      (getE m.elem_vec j).is_empty = true := fun j a b => htrail j b a
  constructor
  · intro heq
    by_contra h5
    have h5' : 4 ≤ m.empty_cnt - (m.elem_vec.length - 1 - pos) := by omega
    have hacc := resize_down_accept_spec m fl ul newsize pos hwf0 hlt hpos_lt
      hpos_used htrail2 hnotlast h5'
    have hL := hacc.1
    rw [heq] at hL
    have hdt : downTarget newsize pos < m.elem_vec.length := by
      rw [downTarget]
      split_ifs <;> omega
    omega
  · intro h5
    have htle := trailing_le_ec m fl ul pos hwf0 hpos_lt htrail2
    have hecU := ec_lt_U64 m fl ul hwf0
    exact resize_down_noop_guard m newsize pos hlen1 hlenN hlt hpos_lt hpos_used
      htrail2 hnotlast (by rw [sub64_small _ _ htle hecU]; omega)

/-- C7 witness: on the 2-slot state with slot 0 used (pos = 0, not the last
    index), resize(1) is a no-op, and indeed free_count − cnt = 0 < 4. -/
theorem spec_C7_witness :
    (acq1 (SlabManager.construct 2)).resize 1 = acq1 (SlabManager.construct 2) ↔
      (acq1 (SlabManager.construct 2)).empty_cnt
        - ((acq1 (SlabManager.construct 2)).elem_vec.length - 1 - 0) < 4 :=
  spec_C7_shrink_guard (acq1 (SlabManager.construct 2)) [1] [0] 1 0
    (by decide) (by decide) (by decide) (by decide) (by decide) (by decide)

/-- C8: for every k > 0, resize(size()+k) increases size() by exactly k and
    empty_count() by exactly k, leaves filled_count() and every previously
    used slot's record unchanged, threads the new slots onto the head of the
    free list (highest index first), and the next acquire() returns the
    newest slot size()+k−1. -/
theorem spec_C8_upsize (m : SlabManager) (fl ul : List Nat) (k : Nat)
    (hwf : WF m fl ul) (hk : 0 < k) (hbound : m.size + k < NULL_INDEX) :
    (m.resize (m.size + k)).size = m.size + k ∧
    (m.resize (m.size + k)).empty_count = m.empty_count + k ∧
    (m.resize (m.size + k)).filled_count = m.filled_count ∧
    (∀ i, i < m.size → (getE m.elem_vec i).is_empty = false →
      getE (m.resize (m.size + k)).elem_vec i = getE m.elem_vec i) ∧
    WF (m.resize (m.size + k)) ((List.range' m.size k).reverse ++ fl) ul ∧
    ((m.resize (m.size + k)).acquire).2 = m.size + k - 1 := by
  simp only [SlabManager.size, SlabManager.empty_count, SlabManager.filled_count]
    at hbound ⊢
  have hup := resize_up_spec m fl ul (m.elem_vec.length + k) hwf (by omega) hbound
  have hd : m.elem_vec.length + k - m.elem_vec.length = k := by omega
  rw [hd] at hup
  obtain ⟨k2, hk2⟩ : ∃ k2, k = k2 + 1 := ⟨k - 1, by omega⟩
  subst hk2
  have hconc : (List.range' m.elem_vec.length (k2 + 1)).reverse
      = (m.elem_vec.length + k2) :: (List.range' m.elem_vec.length k2).reverse := by
    rw [List.range'_concat m.elem_vec.length k2, List.reverse_append]
    simp [Nat.one_mul]
  have hwfup := hup.2.2.2.2.2
  rw [hconc, List.cons_append] at hwfup
  have hacq := acquire_cons_spec (m.resize (m.elem_vec.length + (k2 + 1)))
    (m.elem_vec.length + k2) ((List.range' m.elem_vec.length k2).reverse ++ fl)
    ul hwfup
  refine ⟨hup.1, hup.2.1, hup.2.2.1, hup.2.2.2.2.1, hup.2.2.2.2.2, ?_⟩
  rw [hacq.1]
  omega

/-- C8 witness: resize(size()+3) on construct(2) gives size 5, empty count 5,
    and the next acquire returns slot 4. -/
theorem spec_C8_witness :
    ((SlabManager.construct 2).resize ((SlabManager.construct 2).size + 3)).size
      = (SlabManager.construct 2).size + 3 ∧
    ((SlabManager.construct 2).resize
        ((SlabManager.construct 2).size + 3)).empty_count
      = (SlabManager.construct 2).empty_count + 3 ∧
    (((SlabManager.construct 2).resize
        ((SlabManager.construct 2).size + 3)).acquire).2
      = (SlabManager.construct 2).size + 3 - 1 := by
  have h := spec_C8_upsize (SlabManager.construct 2) [0, 1] [] 3
    (by decide) (by decide) (by decide)
  exact ⟨h.1, h.2.1, h.2.2.2.2.2⟩

/-- C9: is_slot_empty(ind) fails with the out-of-bounds error if and only if
    ind ≥ size(); otherwise it returns the slot's is_empty flag.  In the
    embedding is_slot_empty is a pure function of the state, which does not
    appear in its result, so no state mutation occurs on either path. -/
theorem spec_C9_is_slot_empty (m : SlabManager) (ind : Nat) :
    (m.elem_vec.length ≤ ind ↔
      m.is_slot_empty ind = Except.error SMErr.outOfRange) ∧
    (ind < m.elem_vec.length →
      m.is_slot_empty ind = Except.ok (getE m.elem_vec ind).is_empty) := by
  constructor
  · constructor
    · intro h
      rw [SlabManager.is_slot_empty, if_pos (by omega)]
    · intro h
      by_contra h2
      rw [SlabManager.is_slot_empty, if_neg (by omega)] at h
      exact Except.noConfusion h
  · intro h
    rw [SlabManager.is_slot_empty, if_neg (by omega)]

/-- C9 witness: on construct(1), index 0 is in bounds and reads the flag,
    and index 1 errors out of range exactly because 1 ≥ size. -/
theorem spec_C9_witness :
    (SlabManager.construct 1).is_slot_empty 0
      = Except.ok (getE (SlabManager.construct 1).elem_vec 0).is_empty ∧
    ((SlabManager.construct 1).elem_vec.length ≤ 1 ↔
      (SlabManager.construct 1).is_slot_empty 1
        = Except.error SMErr.outOfRange) :=
  ⟨(spec_C9_is_slot_empty (SlabManager.construct 1) 0).2 (by decide),
    (spec_C9_is_slot_empty (SlabManager.construct 1) 1).1⟩

/-- C10: after a downsize that truncates the array while a used slot
    remains (pos is the highest used index, not last, and the guard
    accepts), the free list is rebuilt in strictly ascending index order:
    it equals the ascending filter of the surviving free indices, its head
    is the lowest-indexed free slot of the new array, and the next
    acquire() returns that lowest free index — so the pre-resize LIFO
    arrangement is not preserved. -/
theorem spec_C10_rebuild_ascending (m : SlabManager) (fl ul : List Nat)
    (newsize pos : Nat) (hwf : WF m fl ul)
    (hlt : newsize < m.elem_vec.length)
    (hpos_lt : pos < m.elem_vec.length)
    (hpos_used : (getE m.elem_vec pos).is_empty = false)
    (htrail : ∀ j, j < m.elem_vec.length → pos < j →
      (getE m.elem_vec j).is_empty = true)
    (hnotlast : pos ≠ m.elem_vec.length - 1)
    (hguard : 4 ≤ m.empty_cnt - (m.elem_vec.length - 1 - pos)) :
    (m.resize newsize).elem_vec.length < m.elem_vec.length ∧
    ∃ f fs,
      (List.range (m.resize newsize).elem_vec.length).filter
          (fun j => (getE m.elem_vec j).is_empty) = f :: fs ∧
      WF (m.resize newsize) (f :: fs) ul ∧
      (m.resize newsize).empty_head = f ∧
      List.Pairwise (· < ·) (f :: fs) ∧
      (∀ j, j < (m.resize newsize).elem_vec.length →
        (getE (m.resize newsize).elem_vec j).is_empty = true → f ≤ j) ∧
      ((m.resize newsize).acquire).2 = f := by
  have hwf0 := hwf
  have htrail2 : ∀ j, pos < j → j < m.elem_vec.length →
      (getE m.elem_vec j).is_empty = true := fun j a b => htrail j b a
  have hacc := resize_down_accept_spec m fl ul newsize pos hwf0 hlt hpos_lt
    hpos_used htrail2 hnotlast hguard
  have hdt : downTarget newsize pos < m.elem_vec.length := by
    rw [downTarget]
    split_ifs <;> omega
  have hdt1 : pos + 1 ≤ downTarget newsize pos := by
    rw [downTarget]
    split_ifs <;> omega
  refine ⟨by rw [hacc.1]; exact hdt, ?_⟩
  cases hfil : (List.range (downTarget newsize pos)).filter
      (fun j => (getE m.elem_vec j).is_empty) with
  | nil =>
    exfalso
    have hsub2 : fl ⊆ List.range' (pos + 1) (m.elem_vec.length - 1 - pos) := by
      intro i hi
      have h1 := (WF_mem_free m fl ul hwf0 i).mp hi
      have h2 : ¬(i < downTarget newsize pos) := by
        intro hcon
        have h3 : i ∈ (List.range (downTarget newsize pos)).filter
            (fun j => (getE m.elem_vec j).is_empty) := by
          rw [List.mem_filter]
          exact ⟨List.mem_range.mpr hcon, h1.2⟩
        rw [hfil] at h3
        exact absurd h3 (by simp)
      rw [List.mem_range'_1]
      omega
    have hnd := (List.nodup_append.mp (WF_nodup m fl ul hwf0)).1
    have hle := (List.subperm_of_subset hnd hsub2).length_le
    have hec := hwf0.2.2.2.2.2.2.2.1
    simp only [List.length_range'] at hle
    omega
  | cons f fs =>
    have hwfnew := hacc.2.2.2.2
    rw [hfil] at hwfnew
    have hsorted : List.Pairwise (· < ·)
        ((List.range (downTarget newsize pos)).filter
          (fun j => (getE m.elem_vec j).is_empty)) :=
      List.Pairwise.sublist (List.filter_sublist _) (List.pairwise_lt_range _)
    rw [hfil] at hsorted
    have hhead : (m.resize newsize).empty_head = f :=
      ((isChain_cons_iff ..).mp hwfnew.2.2.1).1
    have hacq := acquire_cons_spec (m.resize newsize) f fs ul hwfnew
    refine ⟨f, fs, by rw [hacc.1]; exact hfil, hwfnew, hhead, hsorted, ?_, hacq.1⟩
    intro j hj1 hj2
    have hjin : j ∈ f :: fs := by
      rw [WF_mem_free (m.resize newsize) (f :: fs) ul hwfnew j]
      exact ⟨hj1, hj2⟩
    rcases List.mem_cons.mp hjin with h | h
    · omega
    · have := (List.pairwise_cons.mp hsorted).1 j h
      omega

/-- C10 witness: shrinking cexC6 (only slot 8 used, free list 9,7,6,…,0)
    with resize(1) truncates to 9 slots and rebuilds the free list as
    0,1,…,7 in ascending order, so the next acquire returns 0. -/
theorem spec_C10_witness :
    (cexC6.resize 1).elem_vec.length < cexC6.elem_vec.length ∧
    ∃ f fs,
      (List.range (cexC6.resize 1).elem_vec.length).filter
          (fun j => (getE cexC6.elem_vec j).is_empty) = f :: fs ∧
      WF (cexC6.resize 1) (f :: fs) [8] ∧
      (cexC6.resize 1).empty_head = f ∧
      List.Pairwise (· < ·) (f :: fs) ∧
      (∀ j, j < (cexC6.resize 1).elem_vec.length →
        (getE (cexC6.resize 1).elem_vec j).is_empty = true → f ≤ j) ∧
      ((cexC6.resize 1).acquire).2 = f :=
  spec_C10_rebuild_ascending cexC6 [9, 7, 6, 5, 4, 3, 2, 1, 0] [8] 1 8
    (by decide) (by decide) (by decide) (by decide) (by decide) (by decide)
    (by decide)
